import Mathlib

/-!
# Verification of the lite3_service core engine

A shallow embedding of the core components of the `lite3_service`
distributed key/value store (Hybrid Logical Clock, write-ahead log,
Merkle index, storage engine, sync manager listing), translated from
`src/src/engine/*`, together with proofs of the specification claims.

Machine integers are modelled as `Nat`/`Int`, with an explicit
`% 2^w` wherever the C++ performs wrapping unsigned arithmetic.
-/

namespace L3kv

/-! ## Timestamps (src/engine/clock.hpp)

`Timestamp {wall_time : i64, logical : u32, node_id : u32}` with the
lexicographic comparison operators defined in `clock.hpp`. -/

structure Timestamp where
  wall : Int
  logical : Nat
  nodeId : Nat
  deriving DecidableEq, Repr

/-- `operator<` from clock.hpp: lexicographic on (wall, logical, node). -/
def Timestamp.lt (a b : Timestamp) : Prop :=
  a.wall < b.wall ∨ (a.wall = b.wall ∧ (a.logical < b.logical ∨
    (a.logical = b.logical ∧ a.nodeId < b.nodeId)))

instance : DecidablePred fun p : Timestamp × Timestamp => p.1.lt p.2 := by
  intro p; unfold Timestamp.lt; infer_instance

instance (a b : Timestamp) : Decidable (a.lt b) := by
  unfold Timestamp.lt; infer_instance

/-- `operator<=` from clock.hpp is `!(b < a)`. -/
def Timestamp.le (a b : Timestamp) : Prop := ¬ b.lt a

instance (a b : Timestamp) : Decidable (a.le b) := by
  unfold Timestamp.le; infer_instance

/-! ## Hybrid Logical Clock (src/engine/clock.cpp)

State: `max_wall_time_ : i64`, `max_logical_ : u32`, `node_id_ : u32`.
The `u32` counter wraps: every increment is reduced modulo `2^32`,
exactly as the C++ unsigned arithmetic does. -/

def U32 : Nat := 2 ^ 32

structure HLCState where
  maxWall : Int
  maxLogical : Nat
  nodeId : Nat
  deriving DecidableEq, Repr

/-- `HybridLogicalClock::now()`; `physNow` is the value read from
`get_physical_time()` inside the call.  Returns the timestamp and the
updated clock state. -/
def hlcNow (s : HLCState) (physNow : Int) : Timestamp × HLCState :=
  if s.maxWall < physNow then
    (⟨physNow, 0, s.nodeId⟩, { s with maxWall := physNow, maxLogical := 0 })
  else
    let l := (s.maxLogical + 1) % U32
    (⟨s.maxWall, l, s.nodeId⟩, { s with maxLogical := l })

/-- `HybridLogicalClock::reserve_logical(for_phys_time, count)`;
`physRead` is the value read from `get_physical_time()` inside the call.
Returns the `int64_t start_logical` result (−1 on failure) and the new
state.  `start_logical = max_logical_ + 1` is computed in `uint32`
arithmetic before being widened to `int64`, hence the `% U32`. -/
def hlcReserveLogical (s : HLCState) (physRead forPhys : Int) (count : Nat) :
    Int × HLCState :=
  let physNow := max physRead s.maxWall
  if forPhys < physNow then (-1, s)
  else
    let s1 := if s.maxWall < forPhys then
        { s with maxWall := forPhys, maxLogical := 0 } else s
    let start : Nat := (s1.maxLogical + 1) % U32
    ((start : Int), { s1 with maxLogical := (s1.maxLogical + count) % U32 })

/-! ## Thread-local clock batcher (ThreadLocalClock, clock.cpp)

Each worker caches `(cached_phys_time_, cached_logical_next_,
cached_logical_end_)`.  A call to `now()` consumes a sequence of
physical-time readings (one per `get_physical_time()` call inside the
function); the model threads that list explicitly, and returns `none`
when the list runs out mid-call (the C++ would keep spinning). -/

structure TLCCache where
  phys : Int
  next : Nat
  endL : Nat
  deriving DecidableEq, Repr

/-- The `while (true)` retry loop of `ThreadLocalClock::now`.
Each iteration consumes one reading inside `reserve_logical` and, on
failure, one more for `next_phys`; the fallback consumes a third inside
`global_clock_->now()`. -/
def tlcLoop (g : HLCState) (cache : TLCCache) (physNow : Int) :
    List Int → Option (Timestamp × TLCCache × HLCState)
  | [] => none
  | r :: rs =>
    let res := hlcReserveLogical g r physNow 50
    if 0 ≤ res.1 then
      let next : Nat := res.1.toNat
      some (⟨physNow, next, g.nodeId⟩,
            ⟨physNow, (next + 1) % U32, (next + 50) % U32⟩, res.2)
    else
      match rs with
      | [] => none
      | r2 :: rs2 =>
        if r2 = physNow then
          match rs2 with
          | [] => none
          | r3 :: _ =>
            let res2 := hlcNow g r3
            some (res2.1, cache, res2.2)
        else tlcLoop g cache r2 rs2

/-- `ThreadLocalClock::now()`. -/
def tlcNow (g : HLCState) (cache : TLCCache) :
    List Int → Option (Timestamp × TLCCache × HLCState)
  | [] => none
  | r0 :: rs =>
    if r0 = cache.phys ∧ cache.next < cache.endL then
      some (⟨cache.phys, cache.next, g.nodeId⟩,
            { cache with next := (cache.next + 1) % U32 }, g)
    else
      let cache1 := if cache.phys < r0 then ⟨r0, 0, 0⟩ else cache
      tlcLoop g cache1 r0 rs

/-! ### Multi-threaded call traces

A process holds one `HybridLogicalClock` and one `ThreadLocalClock`
cache per worker thread.  A trace interleaves `now()` calls: either a
direct call on the global clock or a call through some thread's
batcher.  The mutex in the C++ serializes every access to the global
clock state, which is what makes this sequential small-step semantics
faithful. -/

inductive ClockStep where
  | global (reading : Int)
  | thread (tid : Nat) (readings : List Int)
  deriving Repr

structure ClockSys where
  g : HLCState
  caches : Nat → TLCCache

def freshClockSys (node : Nat) : ClockSys :=
  { g := ⟨0, 0, node⟩, caches := fun _ => ⟨0, 0, 0⟩ }

/-- Run a trace of `now()` calls; the output records, in call order,
which caller obtained which timestamp (`none` = direct global call). -/
def clockRun (s : ClockSys) : List ClockStep → Option (List (Option Nat × Timestamp))
  | [] => some []
  | .global r :: tr =>
    let res := hlcNow s.g r
    (clockRun { s with g := res.2 } tr).map (fun out => (none, res.1) :: out)
  | .thread tid rs :: tr =>
    match tlcNow s.g (s.caches tid) rs with
    | none => none
    | some (t, c', g') =>
      (clockRun { g := g',
                  caches := fun i => if i = tid then c' else s.caches i } tr).map
        (fun out => (some tid, t) :: out)

/-- Physical-time readings consumed by one step, in order. -/
def ClockStep.readings : ClockStep → List Int
  | .global r => [r]
  | .thread _ rs => rs

/-- All readings of a trace, in chronological order. -/
def traceReadings (tr : List ClockStep) : List Int :=
  (tr.map ClockStep.readings).flatten

/-- The readings are produced by one physical clock: every reading is
at least `B` and the sequence is non-decreasing. -/
def ascFrom (B : Int) : List Int → Prop
  | [] => True
  | r :: rs => B ≤ r ∧ ascFrom r rs

instance : ∀ B rs, Decidable (ascFrom B rs)
  | _, [] => .isTrue trivial
  | _, r :: rs =>
    have : Decidable (ascFrom r rs) := instDecidableAscFrom r rs
    instDecidableAnd

/-- Strict lexicographic order on (wall, logical) pairs. -/
def wlLt (a b : Int × Nat) : Prop := a.1 < b.1 ∨ (a.1 = b.1 ∧ a.2 < b.2)

/-- Lexicographic order on (wall, logical) pairs. -/
def wlLe (a b : Int × Nat) : Prop := a.1 < b.1 ∨ (a.1 = b.1 ∧ a.2 ≤ b.2)

/-- The (wall, logical) projection of a timestamp. -/
def tsWL (t : Timestamp) : Int × Nat := (t.wall, t.logical)

/-- The frontier of the global clock: the largest (wall, logical)
pair it has handed out so far. -/
def frontier (g : HLCState) : Int × Nat := (g.maxWall, g.maxLogical)

/-- The next timestamp a live cache would hand out. -/
def cand (c : TLCCache) : Int × Nat := (c.phys, c.next)

/-- Consistency of a thread's batcher cache with the global clock;
`B` is a lower bound on every physical reading still to come. -/
def CacheOK (g : HLCState) (B : Int) (c : TLCCache) : Prop :=
  c.phys ≤ B ∧ c.phys ≤ g.maxWall ∧ c.next ≤ c.endL ∧ c.endL < U32 ∧
  (c.phys = g.maxWall → c.endL ≤ g.maxLogical + 1)

/-- The monotonicity property of a trace's outputs: any two calls by
the same caller are answered in strictly increasing order, and a
direct global `now()` strictly dominates every earlier answer. -/
def MonotoneOut (out : List (Option Nat × Timestamp)) : Prop :=
  List.Pairwise
    (fun x y => (x.1 = y.1 ∨ y.1 = none) → Timestamp.lt x.2 y.2) out

/-- Postcondition of one completed `ThreadLocalClock::now` retry loop:
how the returned timestamp `t`, the updated cache `c'` and the updated
global clock `g'` relate to the pre-state `g` and to the readings. -/
def LoopPost (g : HLCState) (physNow : Int) (rs : List Int)
    (t : Timestamp) (c' : TLCCache) (g' : HLCState) : Prop :=
  wlLt (frontier g) (tsWL t) ∧
  wlLe (tsWL t) (frontier g') ∧
  wlLe (frontier g) (frontier g') ∧
  c'.phys ≤ rs.getLastD physNow ∧
  c'.phys ≤ g'.maxWall ∧
  c'.next ≤ c'.endL ∧
  c'.endL < U32 ∧
  (c'.phys = g'.maxWall → c'.endL ≤ g'.maxLogical + 1) ∧
  (c'.next < c'.endL → wlLt (tsWL t) (cand c')) ∧
  (c'.endL ≤ c'.next → tsWL t = frontier g') ∧
  g'.maxLogical ≤ g.maxLogical + 50 ∧
  g'.nodeId = g.nodeId

/-- Postcondition of one completed `ThreadLocalClock::now` call. -/
def NowPost (g : HLCState) (c : TLCCache) (B : Int) (rs : List Int)
    (t : Timestamp) (c' : TLCCache) (g' : HLCState) : Prop :=
  (c.next < c.endL → wlLe (cand c) (tsWL t)) ∧
  (c.endL ≤ c.next → wlLt (frontier g) (tsWL t)) ∧
  wlLe (tsWL t) (frontier g') ∧
  wlLe (frontier g) (frontier g') ∧
  CacheOK g' (rs.getLastD B) c' ∧
  (c'.next < c'.endL → wlLt (tsWL t) (cand c')) ∧
  g'.maxLogical ≤ g.maxLogical + 50

/-! ## Write-ahead log (src/engine/wal.hpp)

Bytes are `Nat` values below 256; a WAL file is a byte list.  The frame
is `[crc:4][op:1][key_len:2][payload_len:4][key][payload]`,
little-endian, as laid out by the packed `LogHeader`. -/

/-- A replayed operation: `(op, key, payload)` as handed to the
recovery callback. -/
def BOp : Type := Nat × List Nat × List Nat

instance : DecidableEq BOp := by
  unfold BOp
  infer_instance

/-- All entries are bytes. -/
def IsBytes (l : List Nat) : Prop := ∀ b ∈ l, b < 256

instance (l : List Nat) : Decidable (IsBytes l) := by
  unfold IsBytes
  infer_instance

/-- Eight iterations of the reflected CRC-32 bit loop
(`crc = (crc >> 1) ^ (0xEDB88320 & -(crc & 1))`). -/
def crcBits : Nat → Nat → Nat
  | crc, 0 => crc
  | crc, k + 1 =>
    crcBits ((crc / 2) ^^^ (if crc % 2 = 1 then 0xEDB88320 else 0)) k

/-- Process one byte: `crc ^= byte` then eight bit steps. -/
def crcByte (crc b : Nat) : Nat := crcBits (crc ^^^ b) 8

def crcFold (crc : Nat) (bytes : List Nat) : Nat := bytes.foldl crcByte crc

/-- `WriteAheadLog::compute_crc` over `[op][key][payload]`. -/
def compute_crc (op : Nat) (key payload : List Nat) : Nat :=
  (crcFold (crcFold (crcFold 0xFFFFFFFF [op]) key) payload) ^^^ 0xFFFFFFFF

/-- Little-endian 16-bit image (truncates like a `uint16_t` store). -/
def le16 (n : Nat) : List Nat := [n % 256, n / 256 % 256]

/-- Little-endian 32-bit image (truncates like a `uint32_t` store). -/
def le32 (n : Nat) : List Nat :=
  [n % 256, n / 256 % 256, n / 65536 % 256, n / 16777216 % 256]

def de16 (b0 b1 : Nat) : Nat := b0 + 256 * b1

def de32 (b0 b1 b2 b3 : Nat) : Nat :=
  b0 + 256 * b1 + 65536 * b2 + 16777216 * b3

/-- The byte image `WriteAheadLog::append` writes for one framed
record, with an explicit stored-CRC field (normally the computed CRC;
legacy files may carry 0). -/
def encRecordRaw (crc op : Nat) (key payload : List Nat) : List Nat :=
  le32 crc ++ [op % 256] ++ le16 key.length ++ le32 payload.length ++
    key ++ payload

/-- `WriteAheadLog::append(op, key, payload)`. -/
def encRecord (op : Nat) (key payload : List Nat) : List Nat :=
  encRecordRaw (compute_crc op key payload) op key payload

/-- One sub-operation inside a `BATCH` payload:
`[op:1][klen:2][key][vlen:4][val]`. -/
def encBatchOp (o : BOp) : List Nat :=
  [o.1 % 256] ++ le16 o.2.1.length ++ o.2.1 ++ le32 o.2.2.length ++ o.2.2

/-- The `BATCH` payload `[count:4] { sub-op }×count` built by
`WriteAheadLog::append_batch`. -/
def encBatchPayload (ops : List BOp) : List Nat :=
  le32 ops.length ++ (ops.map encBatchOp).flatten

/-- `WriteAheadLog::append_batch(ops)`: one `BATCH` record with an
empty key. -/
def appendBatch (ops : List BOp) : List Nat :=
  encRecord 4 [] (encBatchPayload ops)

/-- A WAL file produced by a sequence of raw `append` calls. -/
def walFileRecords (rs : List BOp) : List Nat :=
  (rs.map fun r => encRecord r.1 r.2.1 r.2.2).flatten

/-- A WAL file produced by a sequence of `append_batch` calls. -/
def walFileBatches (bs : List (List BOp)) : List Nat :=
  (bs.map appendBatch).flatten

/-- The sub-op replay loop for one `BATCH` payload body (after the
count), mirroring the pointer walk in `WriteAheadLog::recover`;
stops silently at the first bound violation. -/
def replayBatch : Nat → List Nat → List BOp
  | 0, _ => []
  | _ + 1, [] => []
  | count + 1, opb :: rest =>
    match rest with
    | k0 :: k1 :: r2 =>
      let klen := de16 k0 k1
      if klen ≤ r2.length then
        let key := r2.take klen
        match r2.drop klen with
        | p0 :: p1 :: p2 :: p3 :: r4 =>
          let vlen := de32 p0 p1 p2 p3
          if vlen ≤ r4.length then
            (opb, key, r4.take vlen) :: replayBatch count (r4.drop vlen)
          else []
        | _ => []
      else []
    | _ => []

/-- What one framed record contributes to the recovery callback:
a `BATCH` record (op 4) contributes its parsed sub-ops (or nothing if
the payload is shorter than the count field — the `continue` branch);
any other record contributes itself. -/
def recordReplay (op : Nat) (key payload : List Nat) : List BOp :=
  if op = 4 then
    match payload with
    | c0 :: c1 :: c2 :: c3 :: body => replayBatch (de32 c0 c1 c2 c3) body
    | _ => []
  else [(op, key, payload)]

/-- The record loop of `WriteAheadLog::recover`: reads an 11-byte
header, then key and payload; stops at a short read; stops at a CRC
mismatch unless the stored CRC is zero (legacy tolerance). -/
def recoverGo : Nat → List Nat → List BOp
  | 0, _ => []
  | fuel + 1, c0 :: c1 :: c2 :: c3 :: op :: k0 :: k1 :: p0 :: p1 :: p2 :: p3 :: rest =>
    let crc := de32 c0 c1 c2 c3
    let klen := de16 k0 k1
    let plen := de32 p0 p1 p2 p3
    if klen ≤ rest.length then
      let key := rest.take klen
      let r2 := rest.drop klen
      if plen ≤ r2.length then
        let payload := r2.take plen
        if compute_crc op key payload ≠ crc ∧ crc ≠ 0 then []
        else recordReplay op key payload ++ recoverGo fuel (r2.drop plen)
      else []
    else []
  | _ + 1, _ => []

/-- `WriteAheadLog::recover` over a whole byte file. -/
def walRecover (bytes : List Nat) : List BOp :=
  recoverGo (bytes.length + 1) bytes

/-- Well-formed record arguments: a byte-valued op and key/payload
sizes that fit the 16/32-bit length fields. -/
def WRec (r : BOp) : Prop :=
  r.1 < 256 ∧ r.2.1.length < 65536 ∧ IsBytes r.2.1 ∧
    r.2.2.length < 4294967296 ∧ IsBytes r.2.2

instance (r : BOp) : Decidable (WRec r) := by
  unfold WRec
  infer_instance

/-- The replay of a prefix of the appended records, in order. -/
def replayPrefix (rs : List BOp) (k : Nat) : List BOp :=
  ((rs.take k).map fun r => recordReplay r.1 r.2.1 r.2.2).flatten

/-! ## lite3 buffers and the JSON path

`lite3cpp` (`buffer.hpp`, `json.hpp`) is an external library not under
`src/`; the definitions below that mention it are modelled from the
spec.  Strings are `List Char` (byte strings). -/

/-- JSON values as stored in a structured lite3 buffer.
Modelled from the spec: §6 requires the meta parser to accept numbers
as integers or floats and to ignore unknown fields. -/
inductive JVal where
  | jint (n : Int)
  | jfloat (neg : Bool) (ip : Nat) (frac : List Nat)
  | jbool (b : Bool)
  | jnull
  | jstr (s : List Char)
  | jarr (xs : List JVal)
  | jobj (fields : List (List Char × JVal))

def isWs (c : Char) : Bool :=
  c = ' ' || c = Char.ofNat 9 || c = Char.ofNat 10 || c = Char.ofNat 13

def skipWs : List Char → List Char
  | [] => []
  | c :: cs => if isWs c then skipWs cs else c :: cs

def isDigitCh (c : Char) : Bool := 48 ≤ c.toNat && c.toNat ≤ 57

def digitVal (c : Char) : Nat := c.toNat - 48

def digitChar (d : Nat) : Char := Char.ofNat (48 + d)

/-- Consume a maximal run of digits, accumulating their value. -/
def parseDigits : List Char → Nat → Nat × List Char
  | [], acc => (acc, [])
  | c :: cs, acc =>
    if isDigitCh c then parseDigits cs (acc * 10 + digitVal c) else (acc, c :: cs)

/-- Consume a maximal run of digits as a digit list (fraction part). -/
def parseFrac : List Char → List Nat × List Char
  | [] => ([], [])
  | c :: cs =>
    if isDigitCh c then
      let r := parseFrac cs
      (digitVal c :: r.1, r.2)
    else ([], c :: cs)

/-- String body after the opening quote; escapes are not modelled
(none occur in the engine-generated meta strings). -/
def parseStringBody : List Char → Option (List Char × List Char)
  | [] => none
  | c :: cs =>
    if c = Char.ofNat 34 then some ([], cs)
    else if c = Char.ofNat 92 then none
    else (parseStringBody cs).map fun r => (c :: r.1, r.2)

/-- The part of a JSON number after the optional minus sign: digits,
then an optional fraction. -/
def parseNumTail (neg : Bool) (cs : List Char) : Option (JVal × List Char) :=
  match cs with
  | c :: _ =>
    if isDigitCh c then
      let ip := parseDigits cs 0
      match ip.2 with
      | d :: c2 :: t2 =>
        if d = '.' && isDigitCh c2 then
          let fr := parseFrac (c2 :: t2)
          some (.jfloat neg ip.1 fr.1, fr.2)
        else some (.jint (if neg then -(ip.1 : Int) else (ip.1 : Int)), ip.2)
      | _ => some (.jint (if neg then -(ip.1 : Int) else (ip.1 : Int)), ip.2)
    else none
  | [] => none

/-- A JSON number: optional minus, digits, optional fraction. -/
def parseNumber (cs : List Char) : Option (JVal × List Char) :=
  match cs with
  | c :: t => if c = '-' then parseNumTail true t else parseNumTail false cs
  | [] => none

mutual

/-- Recursive-descent JSON value parser (fuel-bounded).
Modelled from the spec: `lite3cpp::lite3_json::from_json_string` is not
under `src/`; this models a standard JSON parser per §6. -/
def parseValue : Nat → List Char → Option (JVal × List Char)
  | 0, _ => none
  | fuel + 1, cs =>
    match skipWs cs with
    | [] => none
    | c :: rest =>
      if c = Char.ofNat 123 then
        match skipWs rest with
        | d :: r2 =>
          if d = Char.ofNat 125 then some (.jobj [], r2)
          else (parseMembers fuel (d :: r2)).map fun r => (.jobj r.1, r.2)
        | [] => none
      else if c = '[' then
        match skipWs rest with
        | d :: r2 =>
          if d = ']' then some (.jarr [], r2)
          else (parseElems fuel (d :: r2)).map fun r => (.jarr r.1, r.2)
        | [] => none
      else if c = Char.ofNat 34 then
        (parseStringBody rest).map fun r => (.jstr r.1, r.2)
      else if c = 't' then
        match rest with
        | 'r' :: 'u' :: 'e' :: r2 => some (.jbool true, r2)
        | _ => none
      else if c = 'f' then
        match rest with
        | 'a' :: 'l' :: 's' :: 'e' :: r2 => some (.jbool false, r2)
        | _ => none
      else if c = 'n' then
        match rest with
        | 'u' :: 'l' :: 'l' :: r2 => some (.jnull, r2)
        | _ => none
      else if c = '-' || isDigitCh c then parseNumber (c :: rest)
      else none

/-- Object members: `"key" : value` separated by commas, ended by the
closing brace. -/
def parseMembers : Nat → List Char → Option (List (List Char × JVal) × List Char)
  | 0, _ => none
  | fuel + 1, cs =>
    match skipWs cs with
    | c :: rest =>
      if c = Char.ofNat 34 then
        match parseStringBody rest with
        | none => none
        | some (key, r2) =>
          match skipWs r2 with
          | d :: r3 =>
            if d = ':' then
              match parseValue fuel r3 with
              | none => none
              | some (v, r4) =>
                match skipWs r4 with
                | e :: r5 =>
                  if e = ',' then
                    (parseMembers fuel r5).map fun r => ((key, v) :: r.1, r.2)
                  else if e = Char.ofNat 125 then some ([(key, v)], r5)
                  else none
                | [] => none
            else none
          | [] => none
      else none
    | [] => none

/-- Array elements separated by commas, ended by the closing bracket. -/
def parseElems : Nat → List Char → Option (List JVal × List Char)
  | 0, _ => none
  | fuel + 1, cs =>
    match parseValue fuel cs with
    | none => none
    | some (v, r) =>
      match skipWs r with
      | e :: r2 =>
        if e = ',' then (parseElems fuel r2).map fun x => (v :: x.1, x.2)
        else if e = ']' then some ([v], r2)
        else none
      | [] => none

end

/-- Parse a whole JSON document: one value, trailing whitespace only. -/
def parseJson (cs : List Char) : Option JVal :=
  match parseValue (cs.length + 1) cs with
  | some (v, r) => if skipWs r = [] then some v else none
  | none => none

/-! ### Decimal printing (std::to_string) -/

def natCharsAux : Nat → Nat → List Char
  | 0, _ => []
  | fuel + 1, n =>
    if n < 10 then [digitChar n]
    else natCharsAux fuel (n / 10) ++ [digitChar (n % 10)]

/-- `std::to_string` for an unsigned value. -/
def natChars (n : Nat) : List Char := natCharsAux (n + 1) n

/-- `std::to_string` for an `int64_t`. -/
def intChars (i : Int) : List Char :=
  if i < 0 then '-' :: natChars i.natAbs else natChars i.toNat

/-! ### Buffer byte image -/

mutual

/-- Modelled from the spec: a canonical byte image for a structured
lite3 buffer (`lite3cpp::Buffer` is external, spec §4.D calls it a
schemaless binary format).  The image is a function of the stored value
and is never empty, which is all the engine relies on. -/
def jvalChars : JVal → List Char
  | .jint n => 'I' :: intChars n
  | .jfloat neg ip fr =>
    'F' :: ((if neg then ['-'] else []) ++ natChars ip ++ '.' :: fr.map digitChar)
  | .jbool b => if b then ['B', '1'] else ['B', '0']
  | .jnull => ['N']
  | .jstr s => 'S' :: (natChars s.length ++ ':' :: s)
  | .jarr xs => 'A' :: (jlistChars xs ++ [']'])
  | .jobj fs => 'O' :: (jfieldsChars fs ++ ['.'])

def jlistChars : List JVal → List Char
  | [] => []
  | v :: vs => jvalChars v ++ ',' :: jlistChars vs

def jfieldsChars : List (List Char × JVal) → List Char
  | [] => []
  | f :: fs =>
    natChars f.1.length ++ ':' :: (f.1 ++ '=' :: (jvalChars f.2 ++ ',' :: jfieldsChars fs))

end

/-- A stored blob: raw bytes or a structured lite3 buffer. -/
inductive BufVal where
  | bin (data : List Char)
  | node (v : JVal)

/-- `Blob::view` / `Buffer::data,size`: the blob's byte image. -/
def BufVal.view : BufVal → List Char
  | .bin d => d
  | .node v => jvalChars v

def BufVal.size (b : BufVal) : Nat := b.view.length

/-- lite3 field types surfaced by `Buffer::get_type`. -/
inductive LType where
  | tnull | tint64 | tfloat64 | tbool | tstring | tarray | tobject
  deriving DecidableEq

def objLookup : List (List Char × JVal) → List Char → Option JVal
  | [], _ => none
  | f :: fs, k => if f.1 = k then some f.2 else objLookup fs k

def BufVal.getField : BufVal → List Char → Option JVal
  | .node (.jobj fs), k => objLookup fs k
  | _, _ => none

/-- `buf.get_type(0, key)`.  Modelled from the spec. -/
def BufVal.getType (b : BufVal) (k : List Char) : LType :=
  match b.getField k with
  | some (.jint _) => .tint64
  | some (.jfloat _ _ _) => .tfloat64
  | some (.jbool _) => .tbool
  | some (.jstr _) => .tstring
  | some (.jarr _) => .tarray
  | some (.jobj _) => .tobject
  | some .jnull => .tnull
  | none => .tnull

/-- `buf.get_i64(0, key)`: integer value of a numeric field, `0`
otherwise.  Modelled from the spec (floats truncate toward zero). -/
def BufVal.getI64 (b : BufVal) (k : List Char) : Int :=
  match b.getField k with
  | some (.jint n) => n
  | some (.jfloat neg ip _) => if neg then -(ip : Int) else (ip : Int)
  | _ => 0

/-- `buf.get_bool(0, key)`.  Modelled from the spec. -/
def BufVal.getBool (b : BufVal) (k : List Char) : Bool :=
  match b.getField k with
  | some (.jbool x) => x
  | _ => false

/-- The fresh blob built by the `Blob` constructor: `init_object()`. -/
def freshBlob : BufVal := .node (.jobj [])

/-- `Blob::overwrite` (store.hpp:35): a payload whose first byte is an
opening brace or bracket is parsed as JSON; on success the structured
buffer replaces the bytes, otherwise — and for every other payload —
the bytes are stored verbatim. -/
def blobOverwrite (data : List Char) : BufVal :=
  let isJson := match data with
    | c :: _ => c = Char.ofNat 123 || c = '['
    | [] => false
  if isJson then
    match parseJson data with
    | some v => .node v
    | none => .bin data
  else .bin data

/-! ### Merkle tree (merkle.hpp) -/

def U64 : Nat := 2 ^ 64

/-- FNV-1a 64-bit (merkle.hpp:16): `hash ^= byte; hash *= prime`. -/
def fnv1a_64 (bytes : List Nat) : Nat :=
  bytes.foldl (fun h b => ((h ^^^ b % 256) * 0x100000001b3) % U64)
    0xcbf29ce484222325

def strBytes (s : List Char) : List Nat := s.map fun c => c.toNat % 256

/-- `Engine::hash_blob` (store.hpp:102). -/
def hash_blob (b : BufVal) : Nat := fnv1a_64 (strBytes b.view)

/-- The leaf bucket of a key: `(fnv1a_64(key) >> 48) & 0xFFFF`. -/
def bucketOf (key : List Char) : Nat :=
  fnv1a_64 (strBytes key) / 2 ^ 48 % 2 ^ 16

/-- The five layers (65536/4096/256/16/1 nodes) and their dirty bits;
out-of-range indices are never touched. -/
structure MerkleState where
  l4 : Nat → Nat
  l3 : Nat → Nat
  l2 : Nat → Nat
  l1 : Nat → Nat
  l0 : Nat
  d3 : Nat → Bool
  d2 : Nat → Bool
  d1 : Nat → Bool
  d0 : Bool

/-- The `MerkleTree` constructor: all hashes 0, all dirty bits clear. -/
def merkleNew : MerkleState :=
  ⟨fun _ => 0, fun _ => 0, fun _ => 0, fun _ => 0, 0,
   fun _ => false, fun _ => false, fun _ => false, false⟩

def upd (f : Nat → Nat) (i v : Nat) : Nat → Nat :=
  fun j => if j = i then v else f j

def updB (f : Nat → Bool) (i : Nat) (v : Bool) : Nat → Bool :=
  fun j => if j = i then v else f j

/-- `MerkleTree::mark_dirty(4, b)` (merkle.hpp:161): mark the path of
leaf `b` dirty upward, stopping at the first already-dirty node. -/
def markDirty (s : MerkleState) (b : Nat) : MerkleState :=
  if s.d3 (b / 16) then s else
    let s1 := { s with d3 := updB s.d3 (b / 16) true }
    if s1.d2 (b / 256) then s1 else
      let s2 := { s1 with d2 := updB s1.d2 (b / 256) true }
      if s2.d1 (b / 4096) then s2 else
        let s3 := { s2 with d1 := updB s2.d1 (b / 4096) true }
        if s3.d0 then s3 else { s3 with d0 := true }

/-- `MerkleTree::apply_delta(key, delta)` (merkle.hpp:133): XOR the
delta into the key's leaf and mark the path dirty. -/
def applyDelta (s : MerkleState) (key : List Char) (delta : Nat) : MerkleState :=
  let b := bucketOf key
  markDirty { s with l4 := upd s.l4 b (s.l4 b ^^^ delta) } b

/-- Little-endian bytes of a `uint64` (x86 layout of `layers_`). -/
def le64 (n : Nat) : List Nat :=
  [n % 256, n / 2 ^ 8 % 256, n / 2 ^ 16 % 256, n / 2 ^ 24 % 256,
   n / 2 ^ 32 % 256, n / 2 ^ 40 % 256, n / 2 ^ 48 % 256, n / 2 ^ 56 % 256]

/-- `fnv1a_64(&layer[i*16], 16*8)`: hash of one 16-child row. -/
def fnvRow (f : Nat → Nat) (i : Nat) : Nat :=
  fnv1a_64 (((List.range 16).map fun k => le64 (f (i * 16 + k))).flatten)

/-- `MerkleTree::recompute_dirty` (merkle.hpp:174): rebuild dirty rows
level by level (L3 from L4, …, L0 from L1), clearing their dirty bits. -/
def recomputeDirty (s : MerkleState) : MerkleState :=
  let l3 := fun i => if i < 4096 ∧ s.d3 i then fnvRow s.l4 i else s.l3 i
  let l2 := fun i => if i < 256 ∧ s.d2 i then fnvRow l3 i else s.l2 i
  let l1 := fun i => if i < 16 ∧ s.d1 i then fnvRow l2 i else s.l1 i
  let l0 := if s.d0 then fnvRow l1 0 else s.l0
  { l4 := s.l4, l3 := l3, l2 := l2, l1 := l1, l0 := l0,
    d3 := fun i => if i < 4096 then false else s.d3 i,
    d2 := fun i => if i < 256 then false else s.d2 i,
    d1 := fun i => if i < 16 then false else s.d1 i,
    d0 := false }

/-- `MerkleTree::get_root_hash` (merkle.hpp:142): recompute dirty
nodes, then return the root. -/
def getRootHash (s : MerkleState) : Nat × MerkleState :=
  let s1 := recomputeDirty s
  (s1.l0, s1)

/-! ### The sharded engine (store.hpp)

The 64 shards guarded by per-shard locks are modelled as one
association list: shard choice (`std::hash(key) % 64`) only partitions
the key space, and `get_bucket_keys` walks every shard. -/

structure EngineState where
  map : List (List Char × BufVal)
  wal : List (List (Nat × List Char × List Char))
  merkle : MerkleState
  clock : HLCState

def mapGet : List (List Char × BufVal) → List Char → Option BufVal
  | [], _ => none
  | e :: t, k => if e.1 = k then some e.2 else mapGet t k

def mapSet : List (List Char × BufVal) → List Char → BufVal → List (List Char × BufVal)
  | [], k, v => [(k, v)]
  | e :: t, k, v => if e.1 = k then (k, v) :: t else e :: mapSet t k v

def metaSuffix : List Char := [':', 'm', 'e', 't', 'a']

def quoteCh : Char := Char.ofNat 34

/-- The meta JSON string built by `Engine::put`, `Engine::del` and
`Engine::apply_mutation` (store.hpp:220, 257, 300):
`\x7b"ts":<wall>,"l":<logical>,"n":<node>[,"tombstone":true]\x7d`. -/
def metaString (t : Timestamp) (tomb : Bool) : List Char :=
  Char.ofNat 123 :: quoteCh :: 't' :: 's' :: quoteCh :: ':' :: (intChars t.wall ++
  ',' :: quoteCh :: 'l' :: quoteCh :: ':' :: (natChars t.logical ++
  ',' :: quoteCh :: 'n' :: quoteCh :: ':' :: (natChars t.nodeId ++
  (if tomb then
    ',' :: quoteCh :: 't' :: 'o' :: 'm' :: 'b' :: 's' :: 't' :: 'o' :: 'n' ::
    'e' :: quoteCh :: ':' :: 't' :: 'r' :: 'u' :: 'e' :: [Char.ofNat 125]
  else [Char.ofNat 125]))))

/-- `Engine::apply_put(key, body)` (store.hpp:109): old hash is 0 for
an absent key; the blob is overwritten and the XOR delta applied. -/
def applyPut (s : EngineState) (key body : List Char) : EngineState :=
  let old_h := match mapGet s.map key with
    | some b => hash_blob b
    | none => 0
  let nb := blobOverwrite body
  { s with map := mapSet s.map key nb,
           merkle := applyDelta s.merkle key (old_h ^^^ hash_blob nb) }

/-- `Engine::apply_del(key)` (store.hpp:154): an absent key is
materialized as a fresh `init_object` blob (whose hash becomes the old
hash), the blob is overwritten with the empty string (binary empty
tombstone), and the call always reports success. -/
def applyDel (s : EngineState) (key : List Char) : Bool × EngineState :=
  let old_h := match mapGet s.map key with
    | some b => hash_blob b
    | none => hash_blob freshBlob
  let nb := blobOverwrite []
  (true, { s with map := mapSet s.map key nb,
                  merkle := applyDelta s.merkle key (old_h ^^^ hash_blob nb) })

/-- `Engine::get(key)` (store.hpp:208): a copy of the blob, or an
empty buffer when absent. -/
def engineGet (s : EngineState) (key : List Char) : BufVal :=
  match mapGet s.map key with
  | some b => b
  | none => .bin []

/-- `Engine::put` (store.hpp:217): take a clock reading, append one
WAL batch `[PUT key body, PUT key:meta meta]`, apply both puts. -/
def enginePut (s : EngineState) (physNow : Int) (key body : List Char) : EngineState :=
  let r := hlcNow s.clock physNow
  let mk := key ++ metaSuffix
  let mv := metaString r.1 false
  let s1 := { s with clock := r.2,
                     wal := s.wal ++ [[(1, key, body), (1, mk, mv)]] }
  applyPut (applyPut s1 key body) mk mv

/-- `Engine::del` (store.hpp:254): take a clock reading, append one
WAL batch `[DELETE_ key, PUT key:meta meta+tombstone]`, apply the
delete and the meta put, and return `apply_del`'s result. -/
def engineDel (s : EngineState) (physNow : Int) (key : List Char) : Bool × EngineState :=
  let r := hlcNow s.clock physNow
  let mk := key ++ metaSuffix
  let mv := metaString r.1 true
  let s1 := { s with clock := r.2,
                     wal := s.wal ++ [[(3, key, []), (1, mk, mv)]] }
  let r2 := applyDel s1 key
  (r2.1, applyPut r2.2 mk mv)

def tsKey : List Char := ['t', 's']
def lKey : List Char := ['l']
def nKey : List Char := ['n']
def tombKey : List Char := ['t', 'o', 'm', 'b', 's', 't', 'o', 'n', 'e']

/-- The local-meta timestamp lookup inlined in `Engine::apply_mutation`
(store.hpp:278): `(0,0,0)` when the meta blob is absent/empty or its
`ts` field is not numeric; `l` and `n` pass through an `int64_t →
uint32_t` cast. -/
def localMetaTs (s : EngineState) (key : List Char) : Timestamp :=
  let buf := engineGet s (key ++ metaSuffix)
  if 0 < buf.size then
    let ty := buf.getType tsKey
    if ty = LType.tint64 ∨ ty = LType.tfloat64 then
      { wall := buf.getI64 tsKey,
        logical := ((buf.getI64 lKey).emod (U32 : Int)).toNat,
        nodeId := ((buf.getI64 nKey).emod (U32 : Int)).toNat }
    else ⟨0, 0, 0⟩
  else ⟨0, 0, 0⟩

/-- A replication mutation (`Mutation` in common.hpp). -/
structure Mutation where
  ts : Timestamp
  key : List Char
  value : List Char
  isDelete : Bool

/-- The single WAL batch `apply_mutation` appends (store.hpp:305):
value (or delete) sub-op, then the meta put. -/
def mutationBatch (m : Mutation) : List (Nat × List Char × List Char) :=
  (if m.isDelete then [(3, m.key, ([] : List Char))]
   else [(1, m.key, m.value)]) ++
  [(1, m.key ++ metaSuffix, metaString m.ts m.isDelete)]

/-- `Engine::apply_mutation(m)` (store.hpp:275): drop when
`m.ts ≤ local_meta.ts`, otherwise append one WAL batch and apply the
value (or tombstone) and its meta. -/
def applyMutation (s : EngineState) (m : Mutation) : EngineState :=
  if m.ts.le (localMetaTs s m.key) then s
  else
    let mk := m.key ++ metaSuffix
    let mv := metaString m.ts m.isDelete
    let s1 := { s with wal := s.wal ++ [mutationBatch m] }
    let s2 := if m.isDelete then (applyDel s1 m.key).2
              else applyPut s1 m.key m.value
    applyPut s2 mk mv

/-- `Engine::get_bucket_keys(b)` (store.hpp:332): every stored key
whose leaf bucket is `b`, paired with its blob hash; tombstones are
included and nothing is filtered out. -/
def getBucketKeys (s : EngineState) (b : Nat) : List (List Char × Nat) :=
  (s.map.filter fun e => bucketOf e.1 == b).map fun e => (e.1, hash_blob e.2)

/-- The `:meta` test in `SyncManager::on_req_bucket`
(sync_manager.hpp:292): length ≥ 5 and the last five bytes ":meta". -/
def isMetaKey (k : List Char) : Bool :=
  if 5 ≤ k.length then k.drop (k.length - 5) == metaSuffix else false

/-- The key list `SyncManager::on_req_bucket` serializes into its
`REP_BUCKET` reply: the bucket keys with `:meta` keys skipped. -/
def repBucketKeys (s : EngineState) (b : Nat) : List (List Char × Nat) :=
  (getBucketKeys s b).filter fun e => !(isMetaKey e.1)

/-! ### Concrete engine states used to instantiate the theorems -/

def sC1 : EngineState :=
  ⟨[('k' :: metaSuffix,
     .node (.jobj [(tsKey, .jint 100), (lKey, .jint 0), (nKey, .jint 1)]))],
   [], merkleNew, ⟨0, 0, 1⟩⟩

def mC1stale : Mutation := ⟨⟨90, 0, 1⟩, ['k'], [], false⟩

def mC1fresh : Mutation := ⟨⟨110, 0, 1⟩, ['k'], ['z'], false⟩

/-- A list that does not continue a decimal digit run. -/
def notDigitStart : List Char → Prop
  | [] => True
  | c :: _ => isDigitCh c = false

/-- A list on which a JSON integer literal ends: neither a digit nor a
decimal point follows. -/
def numStop : List Char → Prop
  | [] => True
  | c :: _ => isDigitCh c = false ∧ c ≠ '.'

/-- The field list of a parsed engine meta string. -/
def metaFields (t : Timestamp) (tomb : Bool) : List (List Char × JVal) :=
  (tsKey, .jint t.wall) :: (lKey, .jint (t.logical : Int)) ::
    (nKey, .jint (t.nodeId : Int)) ::
    (if tomb then [(tombKey, .jbool true)] else [])

def sC2 : EngineState := ⟨[], [], merkleNew, ⟨0, 0, 1⟩⟩

def mC2del : Mutation := ⟨⟨110, 0, 1⟩, ['k'], [], true⟩

def mC2stale : Mutation := ⟨⟨105, 0, 1⟩, ['k'], ['z'], false⟩

end L3kv

/-! # Theorems -/

namespace L3kv

theorem Timestamp.lt_irrefl (a : Timestamp) : ¬ a.lt a := by
  simp [Timestamp.lt]

theorem Timestamp.lt_trans {a b c : Timestamp} (h1 : a.lt b) (h2 : b.lt c) :
    a.lt c := by
  rcases h1 with h | ⟨hw, h | ⟨hl, hn⟩⟩ <;>
    rcases h2 with h' | ⟨hw', h' | ⟨hl', hn'⟩⟩ <;>
    simp_all [Timestamp.lt] <;> omega

/-- `a.le b` unfolded: either `a < b` or the tuples are equal. -/
theorem Timestamp.le_iff (a b : Timestamp) :
    a.le b ↔ a.lt b ∨ (a.wall = b.wall ∧ a.logical = b.logical ∧ a.nodeId = b.nodeId) := by
  unfold Timestamp.le Timestamp.lt
  constructor
  · intro h
    by_cases hw : a.wall = b.wall
    · by_cases hl : a.logical = b.logical
      · by_cases hn : a.nodeId = b.nodeId
        · exact Or.inr ⟨hw, hl, hn⟩
        · left; right; exact ⟨hw, Or.inr ⟨hl, by omega⟩⟩
      · left
        rcases Nat.lt_or_ge a.logical b.logical with h1 | h1
        · exact Or.inr ⟨hw, Or.inl h1⟩
        · exfalso; exact h (Or.inr ⟨hw.symm, Or.inl (by omega)⟩)
    · rcases Int.lt_or_lt_of_ne hw with h1 | h1
      · exact Or.inl (Or.inl h1)
      · exfalso; exact h (Or.inl h1)
  · rintro (h | ⟨hw, hl, hn⟩) h'
    · rcases h with h | ⟨hw, h⟩ <;> rcases h' with h' | ⟨hw', h'⟩ <;> omega
    · rcases h' with h' | ⟨hw', h' | ⟨hl', hn'⟩⟩ <;> omega

theorem wlLt_trans {a b c : Int × Nat} (h1 : wlLt a b) (h2 : wlLt b c) :
    wlLt a c := by
  rcases h1 with h | ⟨hw, h⟩ <;> rcases h2 with h' | ⟨hw', h'⟩ <;>
    simp_all [wlLt] <;> omega

theorem wlLe_trans {a b c : Int × Nat} (h1 : wlLe a b) (h2 : wlLe b c) :
    wlLe a c := by
  rcases h1 with h | ⟨hw, h⟩ <;> rcases h2 with h' | ⟨hw', h'⟩ <;>
    simp_all [wlLe] <;> omega

theorem wlLe_of_lt {a b : Int × Nat} (h : wlLt a b) : wlLe a b := by
  rcases h with h | ⟨hw, h⟩
  · exact Or.inl h
  · exact Or.inr ⟨hw, Nat.le_of_lt h⟩

theorem wlLt_of_le_of_lt {a b c : Int × Nat} (h1 : wlLe a b) (h2 : wlLt b c) :
    wlLt a c := by
  rcases h1 with h | ⟨hw, h⟩ <;> rcases h2 with h' | ⟨hw', h'⟩ <;>
    simp_all [wlLt] <;> omega

theorem wlLt_of_lt_of_le {a b c : Int × Nat} (h1 : wlLt a b) (h2 : wlLe b c) :
    wlLt a c := by
  rcases h1 with h | ⟨hw, h⟩ <;> rcases h2 with h' | ⟨hw', h'⟩ <;>
    simp_all [wlLt] <;> omega

theorem wlLe_refl (a : Int × Nat) : wlLe a a := Or.inr ⟨rfl, Nat.le_refl _⟩

/-- A strict (wall, logical) dominance implies a strict `Timestamp`
comparison regardless of node ids. -/
theorem Timestamp.lt_of_wlLt {a b : Timestamp} (h : wlLt (tsWL a) (tsWL b)) :
    a.lt b := by
  rcases h with h | ⟨hw, h⟩
  · exact Or.inl h
  · exact Or.inr ⟨hw, Or.inl h⟩

/-- A live, consistent cache never hands out anything above the
global frontier. -/
theorem cand_le_frontier {g : HLCState} {B : Int} {c : TLCCache}
    (hok : CacheOK g B c) (hlive : c.next < c.endL) :
    wlLe (cand c) (frontier g) := by
  obtain ⟨_, hw, hne, _, hcond⟩ := hok
  unfold wlLe cand frontier
  rcases lt_or_eq_of_le hw with h | h
  · exact Or.inl h
  · exact Or.inr ⟨h, by have := hcond h; omega⟩

theorem ascFrom_lower {B B' : Int} {l : List Int} (hB : B' ≤ B)
    (h : ascFrom B l) : ascFrom B' l := by
  cases l with
  | nil => trivial
  | cons r rs => exact ⟨le_trans hB h.1, h.2⟩

theorem ascFrom_append_left {B : Int} {xs ys : List Int}
    (h : ascFrom B (xs ++ ys)) : ascFrom B xs := by
  induction xs generalizing B with
  | nil => trivial
  | cons r rs ih => exact ⟨h.1, ih h.2⟩

theorem ascFrom_append_right {B : Int} {xs ys : List Int}
    (h : ascFrom B (xs ++ ys)) : ascFrom (xs.getLastD B) ys := by
  induction xs generalizing B with
  | nil => exact h
  | cons r rs ih =>
    rw [List.getLastD_cons]
    exact ih h.2

theorem ascFrom_le_getLastD {B : Int} {xs : List Int}
    (h : ascFrom B xs) : B ≤ xs.getLastD B := by
  induction xs generalizing B with
  | nil => exact le_refl _
  | cons r rs ih =>
    rw [List.getLastD_cons]
    exact le_trans h.1 (ih h.2)

theorem hlcNow_advance {g : HLCState} {r : Int} (h : g.maxWall < r) :
    hlcNow g r = (⟨r, 0, g.nodeId⟩, ⟨r, 0, g.nodeId⟩) := by
  simp [hlcNow, h]

theorem hlcNow_stay {g : HLCState} {r : Int} (h : ¬ g.maxWall < r) :
    hlcNow g r =
      (⟨g.maxWall, (g.maxLogical + 1) % U32, g.nodeId⟩,
       ⟨g.maxWall, (g.maxLogical + 1) % U32, g.nodeId⟩) := by
  simp [hlcNow, h]

theorem hlcReserveLogical_fail {g : HLCState} {r forPhys : Int} {count : Nat}
    (h : forPhys < max r g.maxWall) :
    hlcReserveLogical g r forPhys count = (-1, g) := by
  simp [hlcReserveLogical, h]

theorem hlcReserveLogical_advance {g : HLCState} {r forPhys : Int} {count : Nat}
    (h : ¬ forPhys < max r g.maxWall) (hw : g.maxWall < forPhys) :
    hlcReserveLogical g r forPhys count =
      (((1 % U32 : Nat) : Int), ⟨forPhys, (0 + count) % U32, g.nodeId⟩) := by
  simp [hlcReserveLogical, h, hw]

theorem hlcReserveLogical_stay {g : HLCState} {r forPhys : Int} {count : Nat}
    (h : ¬ forPhys < max r g.maxWall) (hw : ¬ g.maxWall < forPhys) :
    hlcReserveLogical g r forPhys count =
      ((((g.maxLogical + 1) % U32 : Nat) : Int),
       ⟨g.maxWall, (g.maxLogical + count) % U32, g.nodeId⟩) := by
  simp [hlcReserveLogical, h, hw]

/-- Soundness of the `ThreadLocalClock::now` retry loop (induction on a
bound `n` of the reading-list length). -/
theorem tlcLoop_sound (n : Nat) :
    ∀ (rs : List Int) (g : HLCState) (c : TLCCache) (physNow : Int)
      (t : Timestamp) (c' : TLCCache) (g' : HLCState),
      rs.length ≤ n →
      tlcLoop g c physNow rs = some (t, c', g') →
      ascFrom physNow rs →
      c.phys ≤ physNow → c.endL ≤ c.next → c.next ≤ c.endL → c.endL < U32 →
      g.maxLogical + 51 < U32 →
      LoopPost g physNow rs t c' g' := by
  induction n with
  | zero =>
    intro rs g c physNow t c' g' hlen hrun _ _ _ _ _ _
    cases rs with
    | nil => simp [tlcLoop] at hrun
    | cons r rs' => simp at hlen
  | succ n ihn =>
    intro rs g c physNow t c' g' hlen hrun hasc hphys hemp hne hend hslack
    cases rs with
    | nil => simp [tlcLoop] at hrun
    | cons r rs' =>
      rw [tlcLoop.eq_def] at hrun
      dsimp only at hrun
      by_cases hfail : physNow < max r g.maxWall
      · -- reservation fails
        rw [hlcReserveLogical_fail hfail] at hrun
        rw [if_neg (by norm_num)] at hrun
        cases rs' with
        | nil => simp at hrun
        | cons r2 rs2 =>
          dsimp only at hrun
          have hr : physNow ≤ r := hasc.1
          have hrr2 : r ≤ r2 := hasc.2.1
          by_cases hr2 : r2 = physNow
          · -- fallback to the global clock
            rw [if_pos hr2] at hrun
            cases rs2 with
            | nil => simp at hrun
            | cons r3 rs3 =>
              have hwall : physNow < g.maxWall := by
                have : r = physNow := by omega
                rw [this] at hfail
                omega
              have hr3 : physNow ≤ r3 := by
                have := hasc.2.2.1
                omega
              simp only [Option.some.injEq, Prod.mk.injEq] at hrun
              obtain ⟨ht, hc', hg'⟩ := hrun
              subst ht hc' hg'
              by_cases hn3 : g.maxWall < r3
              · rw [hlcNow_advance hn3]
                refine ⟨Or.inl hn3, ?_, Or.inl hn3, ?_, ?_, hne, hend, ?_, ?_, ?_, ?_, rfl⟩
                · exact wlLe_refl _
                · rw [List.getLastD_cons, List.getLastD_cons]
                  have := ascFrom_le_getLastD hasc.2.2
                  omega
                · simp only
                  omega
                · intro hx
                  simp only at hx
                  omega
                · intro hlive
                  omega
                · intro _
                  rfl
                · simp only
                  omega
              · rw [hlcNow_stay hn3]
                have hmod : (g.maxLogical + 1) % U32 = g.maxLogical + 1 :=
                  Nat.mod_eq_of_lt (by omega)
                refine ⟨?_, ?_, ?_, ?_, ?_, hne, hend, ?_, ?_, ?_, ?_, rfl⟩
                · exact Or.inr ⟨rfl, by simp only [tsWL, frontier, hmod]; omega⟩
                · exact Or.inr ⟨rfl, le_refl _⟩
                · exact Or.inr ⟨rfl, by simp only [frontier, hmod]; omega⟩
                · rw [List.getLastD_cons, List.getLastD_cons]
                  have := ascFrom_le_getLastD hasc.2.2
                  omega
                · simp only
                  omega
                · intro hx
                  simp only at hx
                  omega
                · intro hlive
                  omega
                · intro _
                  rfl
                · simp only [hmod]
                  omega
          · -- retry with an advanced physical reading
            rw [if_neg hr2] at hrun
            have hpost := ihn rs2 g c r2 t c' g' (by simp at hlen ⊢; omega) hrun
              hasc.2.2 (by omega) hemp hne hend hslack
            obtain ⟨p1, p2, p3, p4, p5, p6, p7, p8, p9, p10, p11, p12⟩ := hpost
            refine ⟨p1, p2, p3, ?_, p5, p6, p7, p8, p9, p10, p11, p12⟩
            rw [List.getLastD_cons, List.getLastD_cons]
            exact p4
      · -- reservation succeeds
        have hr : physNow ≤ r := hasc.1
        have hrP : r ≤ physNow := by omega
        by_cases hadv : g.maxWall < physNow
        · rw [hlcReserveLogical_advance hfail hadv] at hrun
          have h1 : (1 : Nat) % U32 = 1 := Nat.mod_eq_of_lt (by omega)
          have h50 : (0 + 50 : Nat) % U32 = 50 := Nat.mod_eq_of_lt (by omega)
          rw [h1, h50] at hrun
          rw [if_pos (by norm_num)] at hrun
          simp only [Option.some.injEq, Prod.mk.injEq] at hrun
          obtain ⟨ht, hc', hg'⟩ := hrun
          subst ht hc' hg'
          have hcast : ((1 : Nat) : Int).toNat = 1 := rfl
          rw [hcast]
          have h2 : (1 + 1) % U32 = 2 := Nat.mod_eq_of_lt (by omega)
          have h51 : (1 + 50) % U32 = 51 := Nat.mod_eq_of_lt (by omega)
          rw [h2, h51]
          refine ⟨Or.inl hadv, Or.inr ⟨rfl, ?_⟩, Or.inl hadv, ?_, le_refl _,
            by dsimp only; omega, by dsimp only; omega, ?_, ?_, ?_, ?_, rfl⟩
          · simp only [tsWL, frontier]
            omega
          · rw [List.getLastD_cons]
            exact le_trans hr (ascFrom_le_getLastD hasc.2)
          · intro _
            simp only
            omega
          · intro _
            exact Or.inr ⟨rfl, by simp only [tsWL, cand]; omega⟩
          · intro hx
            simp only at hx
            omega
          · simp only
            omega
        · have heq : g.maxWall = physNow := by omega
          rw [hlcReserveLogical_stay hfail hadv] at hrun
          have hm1 : (g.maxLogical + 1) % U32 = g.maxLogical + 1 :=
            Nat.mod_eq_of_lt (by omega)
          have hm50 : (g.maxLogical + 50) % U32 = g.maxLogical + 50 :=
            Nat.mod_eq_of_lt (by omega)
          rw [hm1, hm50] at hrun
          rw [if_pos (by positivity)] at hrun
          simp only [Option.some.injEq, Prod.mk.injEq] at hrun
          obtain ⟨ht, hc', hg'⟩ := hrun
          subst ht hc' hg'
          have htn : ((g.maxLogical + 1 : Nat) : Int).toNat = g.maxLogical + 1 := by
            omega
          rw [htn]
          have hm2 : (g.maxLogical + 1 + 1) % U32 = g.maxLogical + 2 :=
            Nat.mod_eq_of_lt (by omega)
          have hm51 : (g.maxLogical + 1 + 50) % U32 = g.maxLogical + 51 :=
            Nat.mod_eq_of_lt (by omega)
          rw [hm2, hm51]
          refine ⟨Or.inr ⟨heq, ?_⟩, Or.inr ⟨heq.symm, ?_⟩,
            Or.inr ⟨rfl, ?_⟩, ?_, ?_, by dsimp only; omega, by dsimp only; omega, ?_, ?_, ?_, ?_, rfl⟩
          · simp only [tsWL, frontier]
            omega
          · simp only [tsWL, frontier]
            omega
          · simp only [frontier]
            omega
          · rw [List.getLastD_cons]
            exact le_trans hr (ascFrom_le_getLastD hasc.2)
          · simp only
            omega
          · intro _
            simp only
            omega
          · intro _
            exact Or.inr ⟨rfl, by simp only [tsWL, cand]; omega⟩
          · intro hx
            simp only at hx
            omega
          · simp only
            omega

end L3kv




namespace L3kv

theorem wlLe_wall {a b : Int × Nat} (h : wlLe a b) : a.1 ≤ b.1 := by
  rcases h with h | ⟨hw, _⟩ <;> omega

theorem wlLe_logical_of_wall_eq {a b : Int × Nat} (h : wlLe a b)
    (hw : a.1 = b.1) : a.2 ≤ b.2 := by
  rcases h with h | ⟨_, h⟩ <;> omega

/-- A consistent cache stays consistent while the global frontier and
the reading lower bound only move forward. -/
theorem CacheOK_mono {g g' : HLCState} {B B' : Int} {c : TLCCache}
    (h : CacheOK g B c) (hf : wlLe (frontier g) (frontier g'))
    (hB : B ≤ B') : CacheOK g' B' c := by
  obtain ⟨h1, h2, h3, h4, h5⟩ := h
  have hw : g.maxWall ≤ g'.maxWall := wlLe_wall hf
  refine ⟨le_trans h1 hB, le_trans h2 hw, h3, h4, ?_⟩
  intro hphys
  have hww : g.maxWall = g'.maxWall := le_antisymm hw (hphys ▸ h2)
  have := wlLe_logical_of_wall_eq hf hww
  have := h5 (by omega)
  simp only [frontier] at *
  omega

/-- Soundness of a complete `ThreadLocalClock::now` call. -/
theorem tlcNow_sound {g : HLCState} {c : TLCCache} {B : Int} {rs : List Int}
    {t : Timestamp} {c' : TLCCache} {g' : HLCState}
    (hrun : tlcNow g c rs = some (t, c', g'))
    (hasc : ascFrom B rs)
    (hok : CacheOK g B c)
    (hslack : g.maxLogical + 51 < U32) :
    NowPost g c B rs t c' g' := by
  obtain ⟨hB, hW, hNE, hEnd, hCond⟩ := hok
  cases rs with
  | nil => simp [tlcNow] at hrun
  | cons r0 rs' =>
    have hBr0 : B ≤ r0 := hasc.1
    rw [tlcNow.eq_def] at hrun
    dsimp only at hrun
    by_cases hhit : r0 = c.phys ∧ c.next < c.endL
    · -- serve from the cache
      rw [if_pos hhit] at hrun
      simp only [Option.some.injEq, Prod.mk.injEq] at hrun
      obtain ⟨ht, hc', hg'⟩ := hrun
      subst ht hc' hg'
      have hmod : (c.next + 1) % U32 = c.next + 1 :=
        Nat.mod_eq_of_lt (by omega)
      have hcf : wlLe (cand c) (frontier g) :=
        cand_le_frontier ⟨hB, hW, hNE, hEnd, hCond⟩ hhit.2
      refine ⟨fun _ => wlLe_refl _, fun hx => absurd hhit.2 (by omega), hcf, wlLe_refl _,
        ?_, ?_, by omega⟩
      · refine ⟨?_, hW, by simp only [hmod]; omega, by simp only [hmod]; omega, ?_⟩
        · simp only
          rw [List.getLastD_cons]
          have := ascFrom_le_getLastD hasc.2
          omega
        · simp only
          exact fun hx => hCond hx
      · intro _
        simp only [tsWL, cand, hmod]
        exact Or.inr ⟨hhit.1.symm ▸ rfl, by omega⟩
    · -- refill or fall back through the retry loop
      rw [if_neg hhit] at hrun
      have hc1 : (if c.phys < r0 then (⟨r0, 0, 0⟩ : TLCCache) else c).phys ≤ r0 ∧
          (if c.phys < r0 then (⟨r0, 0, 0⟩ : TLCCache) else c).endL ≤
            (if c.phys < r0 then (⟨r0, 0, 0⟩ : TLCCache) else c).next ∧
          (if c.phys < r0 then (⟨r0, 0, 0⟩ : TLCCache) else c).next ≤
            (if c.phys < r0 then (⟨r0, 0, 0⟩ : TLCCache) else c).endL ∧
          (if c.phys < r0 then (⟨r0, 0, 0⟩ : TLCCache) else c).endL < U32 := by
        by_cases hlt : c.phys < r0
        · simp only [if_pos hlt]
          refine ⟨le_refl _, by omega, by omega, by omega⟩
        · simp only [if_neg hlt]
          have hpe : c.phys = r0 := by omega
          have hnl : ¬ c.next < c.endL := fun hx => hhit ⟨hpe.symm, hx⟩
          exact ⟨by omega, by omega, hNE, hEnd⟩
      have hpost := tlcLoop_sound rs'.length rs' g _ r0 t c' g' (le_refl _) hrun
        hasc.2 hc1.1 hc1.2.1 hc1.2.2.1 hc1.2.2.2 hslack
      obtain ⟨p1, p2, p3, p4, p5, p6, p7, p8, p9, _, p11, _⟩ := hpost
      refine ⟨?_, fun _ => p1, p2, p3, ?_, p9, p11⟩
      · intro hlive
        exact wlLe_of_lt (wlLt_of_le_of_lt
          (cand_le_frontier ⟨hB, hW, hNE, hEnd, hCond⟩ hlive) p1)
      · rw [List.getLastD_cons]
        exact ⟨p4, p5, p6, p7, p8⟩

end L3kv

namespace L3kv

theorem traceReadings_cons (st : ClockStep) (tr : List ClockStep) :
    traceReadings (st :: tr) = st.readings ++ traceReadings tr := by
  simp [traceReadings]

/-- Facts about one direct `HybridLogicalClock::now` call. -/
theorem hlcNow_facts {g : HLCState} {r : Int} (hslack : g.maxLogical + 1 < U32) :
    wlLt (frontier g) (tsWL (hlcNow g r).1) ∧
    tsWL (hlcNow g r).1 = frontier (hlcNow g r).2 ∧
    wlLe (frontier g) (frontier (hlcNow g r).2) ∧
    (hlcNow g r).2.maxLogical ≤ g.maxLogical + 1 := by
  by_cases h : g.maxWall < r
  · rw [hlcNow_advance h]
    exact ⟨Or.inl h, rfl, Or.inl h, by simp only; omega⟩
  · rw [hlcNow_stay h]
    have hmod : (g.maxLogical + 1) % U32 = g.maxLogical + 1 :=
      Nat.mod_eq_of_lt (by omega)
    refine ⟨Or.inr ⟨rfl, ?_⟩, rfl, Or.inr ⟨rfl, ?_⟩, ?_⟩ <;>
      simp only [tsWL, frontier, hmod] <;> omega

/-- The central monotonicity result for interleaved `now()` traces:
every caller sees a strictly increasing sequence, and direct global
calls dominate everything issued before them. -/
theorem clockRun_sound :
    ∀ (tr : List ClockStep) (s : ClockSys) (B : Int)
      (out : List (Option Nat × Timestamp)),
      clockRun s tr = some out →
      ascFrom B (traceReadings tr) →
      (∀ tid, CacheOK s.g B (s.caches tid)) →
      s.g.maxLogical + 51 * tr.length + 51 < U32 →
      MonotoneOut out ∧
      (∀ p ∈ out, p.1 = none → wlLt (frontier s.g) (tsWL p.2)) ∧
      (∀ tid p, p ∈ out → p.1 = some tid →
        ((s.caches tid).next < (s.caches tid).endL →
            wlLe (cand (s.caches tid)) (tsWL p.2)) ∧
        ((s.caches tid).endL ≤ (s.caches tid).next →
            wlLt (frontier s.g) (tsWL p.2))) := by
  intro tr
  induction tr with
  | nil =>
    intro s B out hrun hasc hok hslack
    simp only [clockRun, Option.some.injEq] at hrun
    subst hrun
    refine ⟨List.Pairwise.nil, by simp, by simp⟩
  | cons st tr' ih =>
    intro s B out hrun hasc hok hslack
    rw [traceReadings_cons] at hasc
    cases st with
    | global r =>
      simp only [clockRun] at hrun
      rcases Option.map_eq_some'.mp hrun with ⟨out', hrun', hout⟩
      subst hout
      have hBr : B ≤ r := hasc.1
      obtain ⟨f1, f2, f3, f4⟩ := @hlcNow_facts s.g r (by omega)
      have hok' : ∀ tid, CacheOK (hlcNow s.g r).2 r (s.caches tid) :=
        fun tid => CacheOK_mono (hok tid) f3 hBr
      have hasc' : ascFrom r (traceReadings tr') := by
        have := hasc.2
        simpa [ClockStep.readings] using this
      have hslack' : (hlcNow s.g r).2.maxLogical + 51 * tr'.length + 51 < U32 := by
        simp only [List.length_cons] at hslack
        omega
      obtain ⟨M', P2', P3'⟩ := ih _ r out' hrun' hasc' hok' hslack'
      refine ⟨?_, ?_, ?_⟩
      · refine List.Pairwise.cons ?_ M'
        intro y hy hcase
        have hyn : y.1 = none := by
          rcases hcase with h | h
          · exact h.symm
          · exact h
        have h2 := P2' y hy hyn
        exact Timestamp.lt_of_wlLt (f2 ▸ h2)
      · intro p hp hpn
        rcases List.mem_cons.mp hp with h | h
        · subst h
          exact f1
        · exact wlLt_of_le_of_lt f3 (P2' p h hpn)
      · intro tid p hp hpt
        rcases List.mem_cons.mp hp with h | h
        · subst h
          simp at hpt
        · have h3 := P3' tid p h hpt
          refine ⟨h3.1, ?_⟩
          intro hemp
          exact wlLt_of_le_of_lt f3 (h3.2 hemp)
    | thread tid rs =>
      simp only [clockRun] at hrun
      rcases htlc : tlcNow s.g (s.caches tid) rs with _ | tcg
      · rw [htlc] at hrun
        simp at hrun
      · obtain ⟨t, c', g'⟩ := tcg
        rw [htlc] at hrun
        dsimp only at hrun
        rcases Option.map_eq_some'.mp hrun with ⟨out', hrun', hout⟩
        subst hout
        have hascs : ascFrom B rs := ascFrom_append_left (by simpa [ClockStep.readings] using hasc)
        have hnp := tlcNow_sound htlc hascs (hok tid) (by omega)
        obtain ⟨n1, n2, n3, n4, n5, n6, n8⟩ := hnp
        have hB' : B ≤ rs.getLastD B := ascFrom_le_getLastD hascs
        have hok' : ∀ i, CacheOK g' (rs.getLastD B)
            (if i = tid then c' else s.caches i) := by
          intro i
          by_cases hi : i = tid
          · simp only [if_pos hi]
            exact n5
          · simp only [if_neg hi]
            exact CacheOK_mono (hok i) n4 hB'
        have hasc' : ascFrom (rs.getLastD B) (traceReadings tr') :=
          ascFrom_append_right (by simpa [ClockStep.readings] using hasc)
        have hslack' : g'.maxLogical + 51 * tr'.length + 51 < U32 := by
          simp only [List.length_cons] at hslack
          omega
        obtain ⟨M', P2', P3'⟩ := ih _ (rs.getLastD B) out' hrun' hasc' hok' hslack'
        have hyt : ∀ y ∈ out', y.1 = some tid → wlLt (tsWL t) (tsWL y.2) := by
          intro y hy hysome
          have h3 := P3' tid y hy hysome
          simp only [eq_self_iff_true, if_true] at h3
          by_cases hlive : c'.next < c'.endL
          · exact wlLt_of_lt_of_le (n6 hlive) (h3.1 hlive)
          · exact wlLt_of_le_of_lt n3 (h3.2 (by omega))
        refine ⟨?_, ?_, ?_⟩
        · refine List.Pairwise.cons ?_ M'
          intro y hy hcase
          rcases hcase with h | h
          · exact Timestamp.lt_of_wlLt (hyt y hy h.symm)
          · exact Timestamp.lt_of_wlLt (wlLt_of_le_of_lt n3 (P2' y hy h))
        · intro p hp hpn
          rcases List.mem_cons.mp hp with h | h
          · subst h
            simp at hpn
          · exact wlLt_of_le_of_lt n4 (P2' p h hpn)
        · intro tid2 p hp hpt
          rcases List.mem_cons.mp hp with h | h
          · subst h
            simp only [Option.some.injEq] at hpt
            subst hpt
            exact ⟨n1, n2⟩
          · by_cases hi : tid2 = tid
            · subst hi
              have hyp := hyt p h hpt
              constructor
              · intro hlive
                exact wlLe_of_lt (wlLt_of_le_of_lt (n1 hlive) hyp)
              · intro hemp
                exact wlLt_trans (n2 hemp) hyp
            · have h3 := P3' tid2 p h hpt
              simp only [if_neg hi] at h3
              refine ⟨h3.1, ?_⟩
              intro hemp
              exact wlLt_of_le_of_lt n4 (h3.2 hemp)

end L3kv

namespace L3kv

/-- Claim C5, counterexample: with two threads drawing timestamps
through their `ThreadLocalClock` batchers during the same microsecond,
thread 1 is handed (10, 51) before thread 0 is handed (10, 2): a
timestamp returned later on the process is not greater than one
returned earlier, so `now()` through the batcher is not process-wide
monotone. -/
theorem C5_counterexample :
    clockRun (freshClockSys 1)
        [.thread 0 [10, 10], .thread 1 [10, 10], .thread 0 [10]] =
      some [(some 0, ⟨10, 1, 1⟩), (some 1, ⟨10, 51, 1⟩), (some 0, ⟨10, 2, 1⟩)] ∧
    ¬ Timestamp.lt (⟨10, 51, 1⟩ : Timestamp) ⟨10, 2, 1⟩ := by
  constructor
  · decide
  · decide

/-- Claim C5 (amended): on one process with non-decreasing physical
readings and no logical-counter wrap-around, every single caller — each
`ThreadLocalClock` and the direct `HybridLogicalClock::now` path — sees
its own answers in strictly increasing order, and a direct global
`now()` strictly dominates every timestamp returned earlier by anyone;
but across two different thread-local batchers no order is guaranteed. -/
theorem C5_per_thread_monotone (node : Nat) (tr : List ClockStep)
    (out : List (Option Nat × Timestamp))
    (hrun : clockRun (freshClockSys node) tr = some out)
    (hasc : ascFrom 0 (traceReadings tr))
    (hslack : 51 * tr.length + 51 < U32) :
    MonotoneOut out := by
  refine (clockRun_sound tr _ 0 out hrun hasc ?_ ?_).1
  · intro tid
    refine ⟨le_refl _, le_refl _, le_refl _, ?_, ?_⟩ <;>
      simp only [freshClockSys] <;> norm_num [U32]
  · simpa [freshClockSys] using hslack

/-- Witness for C5 (amended) at a concrete two-step trace. -/
theorem C5_per_thread_monotone_witness :
    MonotoneOut [(some 0, ⟨10, 1, 1⟩), (none, ⟨11, 0, 1⟩)] :=
  C5_per_thread_monotone 1 [.thread 0 [10, 10], .global 11] _
    (by decide) (by decide) (by decide)

/-- Claim C9, counterexample: with `max_logical = u32::MAX` and
physical time still at `max_wall`, `HybridLogicalClock::now()` does not
block: it wraps the logical counter to 0 at the same wall time,
returning a timestamp that is `<=` the previously returned one. -/
theorem C9_counterexample :
    (hlcNow ⟨10, U32 - 1, 1⟩ 10).1 = ⟨10, 0, 1⟩ ∧
    Timestamp.le (hlcNow ⟨10, U32 - 1, 1⟩ 10).1 ⟨10, U32 - 1, 1⟩ ∧
    ¬ 10 < (hlcNow ⟨10, U32 - 1, 1⟩ 10).1.wall := by
  refine ⟨by decide, by decide, by decide⟩

/-- Claim C9 (amended): when physical time has not advanced past
`max_wall`, `now()` increments the logical counter modulo `2^32`
without any overflow guard; in particular at `max_logical = u32::MAX`
the returned logical value wraps to 0 at an unchanged wall time. -/
theorem C9_logical_wraps (s : HLCState) (phys : Int)
    (h : ¬ s.maxWall < phys) :
    (hlcNow s phys).1 = ⟨s.maxWall, (s.maxLogical + 1) % U32, s.nodeId⟩ ∧
    (s.maxLogical = U32 - 1 →
      (hlcNow s phys).1.logical = 0 ∧ (hlcNow s phys).1.wall = s.maxWall) := by
  rw [hlcNow_stay h]
  refine ⟨rfl, ?_⟩
  intro hl
  constructor
  · simp only [hl]
    have : U32 - 1 + 1 = U32 := by norm_num [U32]
    rw [this, Nat.mod_self]
  · rfl

/-- Witness for C9 (amended) at the wrap point. -/
theorem C9_logical_wraps_witness :
    (hlcNow ⟨10, U32 - 1, 1⟩ 10).1 = ⟨10, (U32 - 1 + 1) % U32, 1⟩ ∧
    (U32 - 1 = U32 - 1 →
      (hlcNow ⟨10, U32 - 1, 1⟩ 10).1.logical = 0 ∧
      (hlcNow ⟨10, U32 - 1, 1⟩ 10).1.wall = 10) :=
  C9_logical_wraps ⟨10, U32 - 1, 1⟩ 10 (by decide)

end L3kv

namespace L3kv

theorem crcBits_lt {crc : Nat} (h : crc < 4294967296) (k : Nat) :
    crcBits crc k < 4294967296 := by
  induction k generalizing crc with
  | zero => simpa [crcBits] using h
  | succ k ih =>
    rw [crcBits]
    apply ih
    have h2 : crc / 2 < 4294967296 := by omega
    have : (4294967296 : Nat) = 2 ^ 32 := by norm_num
    rw [this] at h2 ⊢
    split
    · exact Nat.xor_lt_two_pow h2 (by norm_num)
    · simpa using Nat.xor_lt_two_pow h2 (show 0 < 2 ^ 32 by norm_num)

theorem crcByte_lt {crc b : Nat} (h : crc < 4294967296) (hb : b < 256) :
    crcByte crc b < 4294967296 := by
  apply crcBits_lt
  have : (4294967296 : Nat) = 2 ^ 32 := by norm_num
  rw [this]
  exact Nat.xor_lt_two_pow (by omega) (by omega)

theorem crcFold_lt {crc : Nat} {l : List Nat} (h : crc < 4294967296)
    (hl : IsBytes l) : crcFold crc l < 4294967296 := by
  induction l generalizing crc with
  | nil => simpa [crcFold] using h
  | cons b bs ih =>
    rw [crcFold, List.foldl_cons]
    exact ih (crcByte_lt h (hl b (List.mem_cons_self _ _)))
      (fun x hx => hl x (List.mem_cons_of_mem _ hx))

theorem compute_crc_lt {op : Nat} {key payload : List Nat} (hop : op < 256)
    (hk : IsBytes key) (hp : IsBytes payload) :
    compute_crc op key payload < 4294967296 := by
  unfold compute_crc
  have h1 : crcFold 0xFFFFFFFF [op] < 4294967296 :=
    crcFold_lt (by norm_num) (by intro b hb; simp at hb; omega)
  have h2 := crcFold_lt (crcFold_lt h1 hk) hp
  have : (4294967296 : Nat) = 2 ^ 32 := by norm_num
  rw [this] at h2 ⊢
  exact Nat.xor_lt_two_pow h2 (by norm_num)

theorem isBytes_le16 (n : Nat) : IsBytes (le16 n) := by
  intro b hb
  simp [le16] at hb
  rcases hb with h | h <;> omega

theorem isBytes_le32 (n : Nat) : IsBytes (le32 n) := by
  intro b hb
  simp [le32] at hb
  rcases hb with h | h | h | h <;> omega

theorem isBytes_append {l1 l2 : List Nat} (h1 : IsBytes l1)
    (h2 : IsBytes l2) : IsBytes (l1 ++ l2) := by
  intro b hb
  rcases List.mem_append.mp hb with h | h
  · exact h1 b h
  · exact h2 b h

theorem recoverGo_short {fuel : Nat} {bytes : List Nat}
    (h : bytes.length < 11) : recoverGo fuel bytes = [] := by
  match fuel, bytes with
  | 0, _ => rfl
  | _ + 1, [] => rfl
  | _ + 1, [_] => rfl
  | _ + 1, [_, _] => rfl
  | _ + 1, [_, _, _] => rfl
  | _ + 1, [_, _, _, _] => rfl
  | _ + 1, [_, _, _, _, _] => rfl
  | _ + 1, [_, _, _, _, _, _] => rfl
  | _ + 1, [_, _, _, _, _, _, _] => rfl
  | _ + 1, [_, _, _, _, _, _, _, _] => rfl
  | _ + 1, [_, _, _, _, _, _, _, _, _] => rfl
  | _ + 1, [_, _, _, _, _, _, _, _, _, _] => rfl
  | _ + 1, _ :: _ :: _ :: _ :: _ :: _ :: _ :: _ :: _ :: _ :: _ :: _ =>
    simp at h
    omega

end L3kv

namespace L3kv

/-- Unfolding one well-formed framed record at the head of the file. -/
theorem recoverGo_record {fuel : Nat} {crc op : Nat} {key payload tail : List Nat}
    (hcrc : crc < 4294967296) (hop : op < 256)
    (hk : key.length < 65536) (hp : payload.length < 4294967296) :
    recoverGo (fuel + 1) (encRecordRaw crc op key payload ++ tail) =
      if compute_crc op key payload ≠ crc ∧ crc ≠ 0 then []
      else recordReplay op key payload ++ recoverGo fuel tail := by
  have hbytes : encRecordRaw crc op key payload ++ tail =
      crc % 256 :: crc / 256 % 256 :: crc / 65536 % 256 :: crc / 16777216 % 256 ::
      op % 256 :: key.length % 256 :: key.length / 256 % 256 ::
      payload.length % 256 :: payload.length / 256 % 256 ::
      payload.length / 65536 % 256 :: payload.length / 16777216 % 256 ::
      (key ++ (payload ++ tail)) := by
    simp [encRecordRaw, le32, le16]
  rw [hbytes]
  simp only [recoverGo]
  have hde1 : de32 (crc % 256) (crc / 256 % 256) (crc / 65536 % 256)
      (crc / 16777216 % 256) = crc := by
    unfold de32; omega
  have hde2 : de16 (key.length % 256) (key.length / 256 % 256) = key.length := by
    unfold de16; omega
  have hde3 : de32 (payload.length % 256) (payload.length / 256 % 256)
      (payload.length / 65536 % 256) (payload.length / 16777216 % 256) =
      payload.length := by
    unfold de32; omega
  have hopm : op % 256 = op := Nat.mod_eq_of_lt hop
  simp only [hde1, hde2, hde3, hopm]
  rw [if_pos (by simp only [List.length_append]; omega)]
  rw [List.take_left' rfl, List.drop_left' rfl]
  rw [if_pos (by simp only [List.length_append]; omega)]
  rw [List.take_left' rfl, List.drop_left' rfl]

end L3kv

namespace L3kv

theorem encRecordRaw_length (crc op : Nat) (key payload : List Nat) :
    (encRecordRaw crc op key payload).length =
      11 + key.length + payload.length := by
  simp [encRecordRaw, le32, le16]
  omega

/-- A record cut short at any byte boundary replays nothing. -/
theorem recoverGo_truncRecord {fuel : Nat} {crc op : Nat}
    {key payload : List Nat} {n : Nat}
    (hk : key.length < 65536) (hp : payload.length < 4294967296)
    (hn : n < (encRecordRaw crc op key payload).length) :
    recoverGo fuel ((encRecordRaw crc op key payload).take n) = [] := by
  rw [encRecordRaw_length] at hn
  by_cases hn11 : n < 11
  · exact recoverGo_short (by simp; omega)
  · have hsplit : encRecordRaw crc op key payload =
        (le32 crc ++ [op % 256] ++ le16 key.length ++ le32 payload.length) ++
          (key ++ payload) := by
      simp [encRecordRaw]
    have hlen11 : (le32 crc ++ [op % 256] ++ le16 key.length ++
        le32 payload.length).length = 11 := by
      simp [le32, le16]
    rw [hsplit, List.take_append_eq_append_take, hlen11,
      List.take_of_length_le (by rw [hlen11]; omega)]
    have hcons : (le32 crc ++ [op % 256] ++ le16 key.length ++
        le32 payload.length) ++ (key ++ payload).take (n - 11) =
        crc % 256 :: crc / 256 % 256 :: crc / 65536 % 256 :: crc / 16777216 % 256 ::
        op % 256 :: key.length % 256 :: key.length / 256 % 256 ::
        payload.length % 256 :: payload.length / 256 % 256 ::
        payload.length / 65536 % 256 :: payload.length / 16777216 % 256 ::
        ((key ++ payload).take (n - 11)) := by
      simp [le32, le16]
    rw [hcons]
    cases fuel with
    | zero => rfl
    | succ f =>
      simp only [recoverGo]
      split_ifs with h1 h2 h3
      · rfl
      · exfalso
        have hde2 : de16 (key.length % 256) (key.length / 256 % 256) =
            key.length := by
          unfold de16; omega
        have hde3 : de32 (payload.length % 256) (payload.length / 256 % 256)
            (payload.length / 65536 % 256) (payload.length / 16777216 % 256) =
            payload.length := by
          unfold de32; omega
        rw [hde2] at h1
        rw [hde3] at h2
        simp only [List.length_take, List.length_drop, List.length_append] at h1 h2
        omega
      · rfl
      · rfl

end L3kv

namespace L3kv

/-- `recoverGo` does not depend on the fuel bound once the fuel
exceeds the file length (each iteration consumes at least 11 bytes). -/
theorem recoverGo_fuel_congr :
    ∀ (f1 : Nat) {f2 : Nat} {bytes : List Nat},
      bytes.length < f1 → bytes.length < f2 →
      recoverGo f1 bytes = recoverGo f2 bytes := by
  intro f1
  induction f1 with
  | zero =>
    intro f2 bytes h1 h2
    omega
  | succ f ih =>
    intro f2 bytes h1 h2
    by_cases hshort : bytes.length < 11
    · rw [recoverGo_short hshort, recoverGo_short hshort]
    · match f2, bytes with
      | 0, _ => omega
      | _ + 1, [] => simp at hshort
      | _ + 1, [_] => simp at hshort
      | _ + 1, [_, _] => simp at hshort
      | _ + 1, [_, _, _] => simp at hshort
      | _ + 1, [_, _, _, _] => simp at hshort
      | _ + 1, [_, _, _, _, _] => simp at hshort
      | _ + 1, [_, _, _, _, _, _] => simp at hshort
      | _ + 1, [_, _, _, _, _, _, _] => simp at hshort
      | _ + 1, [_, _, _, _, _, _, _, _] => simp at hshort
      | _ + 1, [_, _, _, _, _, _, _, _, _] => simp at hshort
      | _ + 1, [_, _, _, _, _, _, _, _, _, _] => simp at hshort
      | f2' + 1, c0 :: c1 :: c2 :: c3 :: op :: k0 :: k1 :: p0 :: p1 :: p2 :: p3 :: rest =>
        simp only [recoverGo]
        split_ifs with hc1 hc2 hc3
        · rfl
        · simp only [List.length_cons] at h1 h2
          have hlen : ((rest.drop (de16 k0 k1)).drop
              (de32 p0 p1 p2 p3)).length ≤ rest.length := by
            simp only [List.length_drop]
            omega
          have hrec := @ih f2'
            ((rest.drop (de16 k0 k1)).drop (de32 p0 p1 p2 p3))
            (by omega) (by omega)
          rw [hrec]
        · rfl
        · rfl

end L3kv

namespace L3kv

/-- The sub-op walk of `recover` parses back exactly what
`append_batch` serialized, when every sub-op fits its length fields. -/
theorem replayBatch_enc (bs : List BOp) (hwf : ∀ o ∈ bs, WRec o) :
    replayBatch bs.length ((bs.map encBatchOp).flatten) = bs := by
  induction bs with
  | nil => rfl
  | cons o bs' ih =>
    obtain ⟨hop, hk, _, hv, _⟩ := hwf o (List.mem_cons_self _ _)
    have hcons : ((o :: bs').map encBatchOp).flatten =
        o.1 % 256 :: o.2.1.length % 256 :: o.2.1.length / 256 % 256 ::
        (o.2.1 ++ (o.2.2.length % 256 :: o.2.2.length / 256 % 256 ::
          o.2.2.length / 65536 % 256 :: o.2.2.length / 16777216 % 256 ::
          (o.2.2 ++ (bs'.map encBatchOp).flatten))) := by
      simp [encBatchOp, le16, le32]
    rw [List.length_cons, hcons]
    simp only [replayBatch]
    have hde2 : de16 (o.2.1.length % 256) (o.2.1.length / 256 % 256) =
        o.2.1.length := by
      unfold de16; omega
    rw [hde2]
    rw [if_pos (by simp only [List.length_append, List.length_cons]; omega)]
    rw [List.take_left' rfl, List.drop_left' rfl]
    dsimp only
    have hde3 : de32 (o.2.2.length % 256) (o.2.2.length / 256 % 256)
        (o.2.2.length / 65536 % 256) (o.2.2.length / 16777216 % 256) =
        o.2.2.length := by
      unfold de32; omega
    rw [hde3]
    rw [if_pos (by simp only [List.length_append]; omega)]
    rw [List.take_left' rfl, List.drop_left' rfl]
    rw [ih (fun x hx => hwf x (List.mem_cons_of_mem _ hx))]
    rw [Nat.mod_eq_of_lt hop]
    rfl

/-- A full `BATCH` record replays exactly its sub-op list. -/
theorem recordReplay_batch (b : List BOp) (hwf : ∀ o ∈ b, WRec o)
    (hcnt : b.length < 4294967296) :
    recordReplay 4 [] (encBatchPayload b) = b := by
  have hcons : encBatchPayload b =
      b.length % 256 :: b.length / 256 % 256 :: b.length / 65536 % 256 ::
      b.length / 16777216 % 256 :: (b.map encBatchOp).flatten := by
    simp [encBatchPayload, le32]
  rw [hcons]
  simp only [recordReplay, if_pos rfl]
  have hde : de32 (b.length % 256) (b.length / 256 % 256)
      (b.length / 65536 % 256) (b.length / 16777216 % 256) = b.length := by
    unfold de32; omega
  rw [hde]
  exact replayBatch_enc b hwf

end L3kv

namespace L3kv

theorem replayPrefix_cons (r : BOp) (rs : List BOp) (k : Nat) :
    replayPrefix (r :: rs) (k + 1) =
      recordReplay r.1 r.2.1 r.2.2 ++ replayPrefix rs k := by
  simp [replayPrefix]

/-- Recovery of any byte-truncation of an appended file replays the
per-record contributions of a prefix of the records, and of all of
them when nothing was cut. -/
theorem recoverGo_records_take :
    ∀ (rs : List BOp) (n fuel : Nat), (∀ r ∈ rs, WRec r) →
      ((walFileRecords rs).take n).length < fuel →
      ∃ k, k ≤ rs.length ∧
        recoverGo fuel ((walFileRecords rs).take n) = replayPrefix rs k ∧
        ((walFileRecords rs).length ≤ n → k = rs.length) := by
  intro rs
  induction rs with
  | nil =>
    intro n fuel _ _
    refine ⟨0, le_refl _, ?_, fun _ => rfl⟩
    have h0 : (walFileRecords ([] : List BOp)).take n = [] := by
      simp [walFileRecords]
    rw [h0, recoverGo_short (by simp)]
    rfl
  | cons r rs' ih =>
    intro n fuel hwf hfuel
    obtain ⟨hop, hk, hkb, hv, hvb⟩ := hwf r (List.mem_cons_self _ _)
    have hfile : walFileRecords (r :: rs') =
        encRecord r.1 r.2.1 r.2.2 ++ walFileRecords rs' := by
      simp [walFileRecords]
    have hraw : encRecord r.1 r.2.1 r.2.2 =
        encRecordRaw (compute_crc r.1 r.2.1 r.2.2) r.1 r.2.1 r.2.2 := rfl
    have hLlen : (encRecord r.1 r.2.1 r.2.2).length =
        11 + r.2.1.length + r.2.2.length := by
      rw [hraw, encRecordRaw_length]
    by_cases hn : n < (encRecord r.1 r.2.1 r.2.2).length
    · refine ⟨0, Nat.zero_le _, ?_, ?_⟩
      · rw [hfile, List.take_append_eq_append_take]
        have h0 : n - (encRecord r.1 r.2.1 r.2.2).length = 0 := by omega
        rw [h0]
        simp only [List.take_zero, List.append_nil]
        rw [hraw]
        exact recoverGo_truncRecord hk hv (by rw [← hraw]; exact hn)
      · intro htot
        exfalso
        rw [hfile, List.length_append] at htot
        omega
    · rw [hfile, List.take_append_eq_append_take,
        List.take_of_length_le (by omega)]
      rw [hfile, List.length_take, List.length_append] at hfuel
      cases fuel with
      | zero => omega
      | succ f =>
        obtain ⟨k, hk1, hk2, hk3⟩ := ih (n - (encRecord r.1 r.2.1 r.2.2).length) f
          (fun x hx => hwf x (List.mem_cons_of_mem _ hx))
          (by rw [List.length_take]; omega)
        rw [hraw] at hk2 hk3 hn hLlen
        rw [hraw]
        rw [recoverGo_record (compute_crc_lt hop hkb hvb) hop hk hv]
        rw [if_neg (by simp)]
        refine ⟨k + 1, by simp only [List.length_cons]; omega, ?_, ?_⟩
        · rw [hk2, replayPrefix_cons]
        · intro htot
          rw [List.length_append] at htot
          rw [hk3 (by omega)]
          simp only [List.length_cons]
    
end L3kv

namespace L3kv

theorem isBytes_encBatchOp {o : BOp} (hkb : IsBytes o.2.1)
    (hvb : IsBytes o.2.2) : IsBytes (encBatchOp o) := by
  unfold encBatchOp
  refine isBytes_append (isBytes_append (isBytes_append (isBytes_append ?_
    (isBytes_le16 _)) hkb) (isBytes_le32 _)) hvb
  intro b hb
  simp at hb
  omega

theorem isBytes_encBatchPayload {b : List BOp}
    (h : ∀ o ∈ b, IsBytes o.2.1 ∧ IsBytes o.2.2) :
    IsBytes (encBatchPayload b) := by
  unfold encBatchPayload
  refine isBytes_append (isBytes_le32 _) ?_
  intro x hx
  rw [List.mem_flatten] at hx
  obtain ⟨l, hl, hxl⟩ := hx
  rw [List.mem_map] at hl
  obtain ⟨o, ho, rfl⟩ := hl
  exact isBytes_encBatchOp (h o ho).1 (h o ho).2 x hxl

theorem encBatchPayload_count_le (b : List BOp) :
    b.length ≤ (encBatchPayload b).length := by
  unfold encBatchPayload
  rw [List.length_append]
  have : b.length ≤ ((b.map encBatchOp).flatten).length := by
    induction b with
    | nil => simp
    | cons o b' ih =>
      simp only [List.map_cons, List.flatten_cons, List.length_append,
        List.length_cons]
      have : 1 ≤ (encBatchOp o).length := by
        unfold encBatchOp
        simp
      omega
  rw [show (le32 b.length).length = 4 from rfl]
  omega

/-- Recovery of any byte-truncation of a file written by a sequence of
`append_batch` calls replays the concatenation of a prefix of the
batches, whole batches only — and all of them when nothing was cut. -/
theorem walRecover_batches_take (bs : List (List BOp)) (n : Nat)
    (hwf : ∀ b ∈ bs, ∀ o ∈ b, WRec o)
    (hlen : ∀ b ∈ bs, (encBatchPayload b).length < 4294967296) :
    ∃ k, k ≤ bs.length ∧
      walRecover ((walFileBatches bs).take n) = (bs.take k).flatten ∧
      ((walFileBatches bs).length ≤ n → k = bs.length) := by
  have hfile : walFileBatches bs =
      walFileRecords (bs.map fun b => ((4 : Nat), ([] : List Nat), encBatchPayload b)) := by
    unfold walFileBatches walFileRecords appendBatch
    rw [List.map_map]
    rfl
  have hwfr : ∀ r ∈ bs.map fun b => ((4 : Nat), ([] : List Nat), encBatchPayload b),
      WRec r := by
    intro r hr
    rw [List.mem_map] at hr
    obtain ⟨b, hb, rfl⟩ := hr
    exact ⟨by norm_num, by simp, by intro x hx; simp at hx,
      hlen b hb, isBytes_encBatchPayload
        (fun o ho => ⟨((hwf b hb) o ho).2.2.1, ((hwf b hb) o ho).2.2.2.2⟩)⟩
  obtain ⟨k, hk1, hk2, hk3⟩ := recoverGo_records_take
    (bs.map fun b => ((4 : Nat), ([] : List Nat), encBatchPayload b)) n
    (((walFileRecords (bs.map fun b =>
      ((4 : Nat), ([] : List Nat), encBatchPayload b))).take n).length + 1)
    hwfr (by omega)
  rw [List.length_map] at hk1
  refine ⟨k, hk1, ?_, ?_⟩
  · rw [walRecover, hfile, hk2]
    unfold replayPrefix
    rw [← List.map_take, List.map_map]
    have hrepl : ∀ b ∈ bs.take k, (recordReplay 4 [] (encBatchPayload b)) = b := by
      intro b hb
      have hbm := List.mem_of_mem_take hb
      refine recordReplay_batch b (hwf b hbm) ?_
      have := encBatchPayload_count_le b
      have := hlen b hbm
      omega
    congr 1
    have hmap : ∀ b ∈ List.take k bs,
        ((fun r : BOp => recordReplay r.1 r.2.1 r.2.2) ∘
          fun b => ((4 : Nat), ([] : List Nat), encBatchPayload b)) b = id b := by
      intro b hb
      simp only [Function.comp_apply, id]
      exact hrepl b hb
    rw [List.map_congr_left hmap, List.map_id]
  · intro htot
    rw [hk3 (by rw [← hfile]; exact htot), List.length_map]

end L3kv

namespace L3kv

/-- Claim C4: `recover` replays framed records in file order.  Part 1:
under any byte-truncation, the callback sees exactly the contribution
of a prefix of the appended records (all of them when nothing was
cut).  Part 2: a record whose stored CRC is nonzero and differs from
the computed CRC aborts the remainder of the file.  Part 3 (the single
exception): a stored CRC of zero is accepted even when the computed
CRC differs; the record is replayed and the scan continues. -/
theorem C4_recover_prefix_and_crc :
    (∀ (rs : List BOp) (n : Nat), (∀ r ∈ rs, WRec r) →
      ∃ k, k ≤ rs.length ∧
        walRecover ((walFileRecords rs).take n) = replayPrefix rs k ∧
        ((walFileRecords rs).length ≤ n → k = rs.length)) ∧
    (∀ (crc op : Nat) (key payload tail : List Nat),
      crc < 4294967296 → op < 256 → key.length < 65536 →
      payload.length < 4294967296 →
      compute_crc op key payload ≠ crc → crc ≠ 0 →
      walRecover (encRecordRaw crc op key payload ++ tail) = []) ∧
    (∀ (op : Nat) (key payload tail : List Nat),
      op < 256 → key.length < 65536 → payload.length < 4294967296 →
      compute_crc op key payload ≠ 0 →
      walRecover (encRecordRaw 0 op key payload ++ tail) =
        recordReplay op key payload ++ walRecover tail) := by
  refine ⟨?_, ?_, ?_⟩
  · intro rs n hwf
    exact recoverGo_records_take rs n _ hwf (by omega)
  · intro crc op key payload tail hcrc hop hk hp hne h0
    unfold walRecover
    rw [recoverGo_record hcrc hop hk hp]
    rw [if_pos ⟨hne, h0⟩]
  · intro op key payload tail hop hk hp _
    unfold walRecover
    rw [recoverGo_record (by norm_num) hop hk hp]
    rw [if_neg (by simp)]
    congr 1
    refine recoverGo_fuel_congr _ ?_ (by omega)
    rw [List.length_append, encRecordRaw_length]
    omega

/-- Witness for C4 at concrete records: a truncated two-record file, a
corrupted-CRC record, and a zero-CRC legacy record. -/
theorem C4_recover_prefix_and_crc_witness :
    (∃ k, k ≤ [((1 : Nat), [107], [118])].length ∧
      walRecover ((walFileRecords [((1 : Nat), [107], [118])]).take 5) =
        replayPrefix [((1 : Nat), [107], [118])] k ∧
      ((walFileRecords [((1 : Nat), [107], [118])]).length ≤ 5 →
        k = [((1 : Nat), [107], [118])].length)) ∧
    walRecover (encRecordRaw 7 1 [107] [118] ++ encRecord 3 [106] []) = [] ∧
    walRecover (encRecordRaw 0 1 [107] [118] ++ encRecord 3 [106] []) =
      recordReplay 1 [107] [118] ++ walRecover (encRecord 3 [106] []) := by
  obtain ⟨h1, h2, h3⟩ := C4_recover_prefix_and_crc
  refine ⟨h1 [((1 : Nat), [107], [118])] 5 (by decide),
    h2 7 1 [107] [118] _ (by decide) (by decide) (by decide) (by decide)
      (by decide) (by decide),
    h3 1 [107] [118] _ (by decide) (by decide) (by decide) (by decide)⟩

end L3kv

namespace L3kv

/-- Claim C3 (amended): for batches whose sub-ops fit the serialized
length fields — keys shorter than 2^16 bytes, values shorter than 2^32
bytes, and a batch payload below 2^32 bytes — recovery of the
(possibly byte-truncated) file replays exactly the concatenation of a
prefix of the batches: every batch contributes all of its sub-ops or
none of them. -/
theorem C3_batch_atomicity (bs : List (List BOp)) (n : Nat)
    (hwf : ∀ b ∈ bs, ∀ o ∈ b, WRec o)
    (hlen : ∀ b ∈ bs, (encBatchPayload b).length < 4294967296) :
    ∃ k, k ≤ bs.length ∧
      walRecover ((walFileBatches bs).take n) = (bs.take k).flatten ∧
      ((walFileBatches bs).length ≤ n → k = bs.length) :=
  walRecover_batches_take bs n hwf hlen

/-- Witness for C3 (amended) on a concrete two-batch file cut inside
the second batch. -/
theorem C3_batch_atomicity_witness :
    ∃ k, k ≤ ([[((1 : Nat), [107], [118])], [((3 : Nat), [106], [])]] :
        List (List BOp)).length ∧
      walRecover ((walFileBatches
        [[((1 : Nat), [107], [118])], [((3 : Nat), [106], [])]]).take 30) =
        (([[((1 : Nat), [107], [118])], [((3 : Nat), [106], [])]] :
          List (List BOp)).take k).flatten ∧
      ((walFileBatches
          [[((1 : Nat), [107], [118])], [((3 : Nat), [106], [])]]).length ≤ 30 →
        k = 2) :=
  C3_batch_atomicity [[((1 : Nat), [107], [118])], [((3 : Nat), [106], [])]]
    30 (by decide) (by decide)

end L3kv

namespace L3kv

/-- Helper for the C3 counterexample: a two-sub-op batch whose second
sub-op's key `K` has length 65536 (so the 16-bit length field stores 0)
replays only the first sub-op.  `K` is kept abstract. -/
theorem recover_longKeyBatch (K Ktl : List Nat) (hbytes : IsBytes K)
    (hsplit : K = 97 :: 97 :: 97 :: 97 :: Ktl)
    (hKtl : Ktl.length = 65532) :
    walRecover (walFileBatches [[((1 : Nat), [107], [118]),
        ((1 : Nat), K, [])]]) = [((1 : Nat), [107], [118])] := by
  have hK : K.length = 65536 := by
    rw [hsplit]
    simp only [List.length_cons, hKtl]
  have hPbytes : IsBytes (encBatchPayload [((1 : Nat), [107], [118]),
      ((1 : Nat), K, [])]) := by
    refine isBytes_encBatchPayload ?_
    intro o ho
    rcases List.mem_cons.mp ho with h | h
    · rw [h]
      exact ⟨by decide, by decide⟩
    · rw [List.mem_singleton] at h
      rw [h]
      exact ⟨hbytes, fun x hx => absurd hx (List.not_mem_nil x)⟩
  have hle16big : le16 K.length = [0, 0] := by
    rw [hK]
    norm_num [le16]
  have h2 : encBatchOp ((1 : Nat), K, []) =
      1 :: 0 :: 0 :: (K ++ [0, 0, 0, 0]) := by
    show [(1 : Nat) % 256] ++ le16 K.length ++ K ++ le32 ([] : List Nat).length
      ++ [] = _
    rw [hle16big]
    rw [show le32 ([] : List Nat).length = [0, 0, 0, 0] from by norm_num [le32]]
    rw [show (1 : Nat) % 256 = 1 from rfl]
    simp only [List.cons_append, List.nil_append, List.append_nil]
  have h1 : encBatchOp ((1 : Nat), [107], [118]) =
      [1, 1, 0, 107, 1, 0, 0, 0, 118] := by
    norm_num [encBatchOp, le16, le32]
  have hPcons : encBatchPayload [((1 : Nat), [107], [118]), ((1 : Nat), K, [])] =
      2 :: 0 :: 0 :: 0 ::
      (1 :: 1 :: 0 :: 107 :: 1 :: 0 :: 0 :: 0 :: 118 ::
       (1 :: 0 :: 0 :: (K ++ [0, 0, 0, 0]))) := by
    show le32 ([((1 : Nat), [107], [118]),
        ((1 : Nat), K, [])] : List BOp).length ++ _ = _
    rw [show le32 ([((1 : Nat), [107], [118]),
        ((1 : Nat), K, [])] : List BOp).length =
      [2, 0, 0, 0] from by norm_num [le32]]
    simp only [List.map_cons, List.map_nil, List.flatten_cons, List.flatten_nil,
      h1, h2]
    simp only [List.cons_append, List.nil_append, List.append_nil]
  have hPlen : (encBatchPayload [((1 : Nat), [107], [118]),
      ((1 : Nat), K, [])]).length = 65556 := by
    rw [hPcons]
    simp only [List.length_cons, List.length_append, hK]
    norm_num
  have hfile : walFileBatches [[((1 : Nat), [107], [118]), ((1 : Nat), K, [])]] =
      encRecordRaw (compute_crc 4 [] (encBatchPayload [((1 : Nat), [107], [118]),
        ((1 : Nat), K, [])])) 4 []
        (encBatchPayload [((1 : Nat), [107], [118]), ((1 : Nat), K, [])]) ++
        [] := rfl
  rw [hfile]
  unfold walRecover
  rw [recoverGo_record
    (compute_crc_lt (by norm_num) (fun x hx => absurd hx (List.not_mem_nil x))
      hPbytes)
    (by norm_num) (by norm_num) (by rw [hPlen]; norm_num)]
  rw [if_neg (fun h => h.1 rfl)]
  rw [recoverGo_short (by norm_num)]
  rw [List.append_nil]
  rw [hPcons, hsplit]
  simp only [recordReplay, if_pos rfl]
  simp only [List.cons_append]
  simp only [replayBatch, de16, de32, List.take_succ_cons, List.take_zero,
    List.drop_succ_cons, List.drop_zero, List.length_cons, List.length_append,
    hKtl]
  norm_num
  omega

end L3kv

namespace L3kv

/-- Claim C3, counterexample: `append_batch` stores key lengths in a
16-bit field, so a batch whose second sub-op carries a 65536-byte key
serializes that length as 0; recovery then misparses the sub-op and
stops early, having replayed only the first sub-op — a strict,
non-empty subset of one batch's sub-ops survives recovery. -/
theorem C3_counterexample :
    walRecover (walFileBatches [[((1 : Nat), [107], [118]),
        ((1 : Nat), List.replicate 65536 97, [])]]) =
      [((1 : Nat), [107], [118])] ∧
    ([((1 : Nat), [107], [118])] : List BOp) ≠ [] ∧
    ([((1 : Nat), [107], [118])] : List BOp) ≠
      [((1 : Nat), [107], [118]), ((1 : Nat), List.replicate 65536 97, [])] := by
  refine ⟨?_, ?_, ?_⟩
  · refine recover_longKeyBatch (List.replicate 65536 97)
      (List.replicate 65532 97) ?_ ?_ (List.length_replicate 65532 97)
    · intro b hb
      rw [List.eq_of_mem_replicate hb]
      norm_num
    · rw [show (65536 : Nat) = 4 + 65532 by norm_num, List.replicate_add]
      rfl
  · intro h
    exact absurd (congrArg List.length h) (by norm_num)
  · intro h
    have hlen := congrArg List.length h
    rw [List.length_cons, List.length_cons, List.length_singleton,
      List.length_nil] at hlen
    omega

end L3kv

namespace L3kv

/-! ## Map and key helper lemmas -/

theorem mapGet_mapSet_self (m : List (List Char × BufVal)) (k : List Char)
    (v : BufVal) : mapGet (mapSet m k v) k = some v := by
  induction m with
  | nil => simp [mapSet, mapGet]
  | cons e t ih =>
    by_cases h : e.1 = k
    · simp [mapSet, h, mapGet]
    · simp [mapSet, h, mapGet, ih]

theorem mapGet_mapSet_ne (m : List (List Char × BufVal)) (k k' : List Char)
    (v : BufVal) (h : k ≠ k') : mapGet (mapSet m k v) k' = mapGet m k' := by
  induction m with
  | nil => simp [mapSet, mapGet, h]
  | cons e t ih =>
    by_cases he : e.1 = k
    · have hne : e.1 ≠ k' := by rw [he]; exact h
      simp [mapSet, he, mapGet, h, hne]
    · simp [mapSet, he, mapGet, ih]

theorem key_ne_metaKey (k : List Char) : k ≠ k ++ metaSuffix := by
  intro h
  have hl := congrArg List.length h
  simp [metaSuffix] at hl

theorem metaKey_ne_key (k : List Char) : k ++ metaSuffix ≠ k :=
  fun h => key_ne_metaKey k h.symm

theorem Timestamp.le_of_lt {a b : Timestamp} (h : a.lt b) : a.le b :=
  fun h' => Timestamp.lt_irrefl a (Timestamp.lt_trans h h')

set_option maxRecDepth 4000 in
/-- Claim C6, code behaviour: the code diverges from the claimed XOR-cancellation law: on
the fresh tree `get_root_hash` returns 0, and after the cancelling pair
`apply_delta("k1", 0xAA); apply_delta("k1", 0xAA)` the leaf is back to
its old value yet the root returned by `get_root_hash` is a non-zero
FNV recomputation — not the pre-pair root.  (`test_merkle.cpp` asserts
both `h_empty != 0` and the return to `h_empty`.) -/
theorem C6_root_not_restored_after_cancelling_pair :
    (getRootHash merkleNew).1 = 0 ∧
    (getRootHash
      (applyDelta (applyDelta merkleNew ['k', '1'] 170) ['k', '1'] 170)).1 ≠ 0 ∧
    (applyDelta (applyDelta merkleNew ['k', '1'] 170) ['k', '1'] 170).l4
      (bucketOf ['k', '1']) = 0 := by
  refine ⟨rfl, by decide, by decide⟩

/-- Claim C10: `Engine::del` always reports success — `apply_del`
returns `true` unconditionally, materializing an absent key as a
tombstone — and after the call the key's blob is the empty binary
tombstone, so the boolean never distinguishes present from absent
keys. -/
theorem C10_del_always_reports_success (s : EngineState) (physNow : Int)
    (key : List Char) :
    (engineDel s physNow key).1 = true ∧
    (engineGet (engineDel s physNow key).2 key).view = [] := by
  refine ⟨rfl, ?_⟩
  show (engineGet (applyPut (applyDel _ key).2
    (key ++ metaSuffix) _) key).view = []
  simp only [applyPut, applyDel, engineGet]
  rw [mapGet_mapSet_ne _ _ _ _ (metaKey_ne_key key), mapGet_mapSet_self]
  rfl

/-- Claim C7 (amended): `Engine::get_bucket_keys(b)` returns exactly the
(key, blob hash) pairs of stored keys whose leaf bucket is `b`,
including internal `:meta` keys; the `:meta` suppression happens one
layer up, in the `REP_BUCKET` list `SyncManager::on_req_bucket`
serializes. -/
theorem C7_bucket_keys_meta_filter (s : EngineState) (b : Nat)
    (k : List Char) (hv : Nat) :
    ((k, hv) ∈ getBucketKeys s b ↔
      ∃ bv, (k, bv) ∈ s.map ∧ bucketOf k = b ∧ hv = hash_blob bv) ∧
    ((k, hv) ∈ repBucketKeys s b ↔
      (k, hv) ∈ getBucketKeys s b ∧ isMetaKey k = false) := by
  constructor
  · simp only [getBucketKeys, List.mem_map, List.mem_filter, beq_iff_eq,
      Prod.mk.injEq]
    constructor
    · rintro ⟨e, ⟨hmem, hb⟩, hk, hh⟩
      exact ⟨e.2, by rwa [← hk], by rwa [← hk], hh.symm⟩
    · rintro ⟨bv, hmem, hb, rfl⟩
      exact ⟨(k, bv), ⟨hmem, hb⟩, rfl, rfl⟩
  · simp only [repBucketKeys, List.mem_filter, Bool.not_eq_true',
      Bool.not_eq_eq_eq_not, Bool.not_true]

/-- Claim C7, counterexample to the frozen wording: a stored `:meta` key
does appear in `Engine::get_bucket_keys` for its bucket. -/
theorem C7_counterexample :
    ('x' :: metaSuffix, hash_blob (.bin [])) ∈
      getBucketKeys
        ⟨[('x' :: metaSuffix, .bin [])], [], merkleNew, ⟨0, 0, 1⟩⟩
        (bucketOf ('x' :: metaSuffix)) ∧
    isMetaKey ('x' :: metaSuffix) = true := by
  constructor
  · simp [getBucketKeys, List.mem_filter]
  · decide

/-- Claim C8 (amended): the put/get path is byte-exact for every payload
that does not enter the JSON branch of `Blob::overwrite`: if the
payload is empty, does not start with an opening brace or bracket, or
fails to parse as JSON, then `get` returns exactly the bytes of
`body`. -/
theorem C8_put_get_byte_exact (s : EngineState) (physNow : Int)
    (key body : List Char)
    (h : (∀ c rest, body = c :: rest → c ≠ Char.ofNat 123 ∧ c ≠ '[') ∨
      parseJson body = none) :
    (engineGet (enginePut s physNow key body) key).view = body := by
  have hov : blobOverwrite body = .bin body := by
    unfold blobOverwrite
    cases body with
    | nil => rfl
    | cons c rest =>
      rcases h with h | h
      · obtain ⟨h1, h2⟩ := h c rest rfl
        simp [h1, h2]
      · by_cases hc : (c = Char.ofNat 123 || c = '[') = true
        · simp [hc, h]
        · simp [hc]
  show (engineGet (applyPut (applyPut _ key body) (key ++ metaSuffix) _)
    key).view = body
  simp only [applyPut, engineGet]
  rw [mapGet_mapSet_ne _ _ _ _ (metaKey_ne_key key), mapGet_mapSet_self, hov]
  rfl

/-- Witness for C8: a one-byte binary payload survives put/get
byte-for-byte. -/
theorem C8_put_get_byte_exact_witness :
    (engineGet (enginePut ⟨[], [], merkleNew, ⟨0, 0, 1⟩⟩ 0 ['k'] ['x'])
      ['k']).view = ['x'] :=
  C8_put_get_byte_exact ⟨[], [], merkleNew, ⟨0, 0, 1⟩⟩ 0 ['k'] ['x']
    (Or.inl (by
      intro c rest h
      injection h with h1 _
      subst h1
      exact ⟨by decide, by decide⟩))

/-- Claim C8, counterexample to the frozen wording: two distinct
payloads that both start with an opening brace parse to the same JSON
value, so after `put` both keys hold identical bytes — the stored image
cannot be byte-exact for both. -/
theorem C8_counterexample :
    (engineGet (enginePut ⟨[], [], merkleNew, ⟨0, 0, 1⟩⟩ 0 ['k']
        [Char.ofNat 123, Char.ofNat 34, 'a', Char.ofNat 34, ':', '1',
         Char.ofNat 125]) ['k']).view =
    (engineGet (enginePut ⟨[], [], merkleNew, ⟨0, 0, 1⟩⟩ 0 ['k']
        [Char.ofNat 123, ' ', Char.ofNat 34, 'a', Char.ofNat 34, ':', '1',
         Char.ofNat 125]) ['k']).view ∧
    ([Char.ofNat 123, Char.ofNat 34, 'a', Char.ofNat 34, ':', '1',
      Char.ofNat 125] : List Char) ≠
    [Char.ofNat 123, ' ', Char.ofNat 34, 'a', Char.ofNat 34, ':', '1',
     Char.ofNat 125] := by
  constructor
  · decide
  · decide

end L3kv

namespace L3kv

/-! ## C1: LWW gate in apply_mutation -/

theorem applyPut_wal (s : EngineState) (k b : List Char) :
    (applyPut s k b).wal = s.wal := rfl

theorem applyPut_clock (s : EngineState) (k b : List Char) :
    (applyPut s k b).clock = s.clock := rfl

theorem applyPut_map (s : EngineState) (k b : List Char) :
    (applyPut s k b).map = mapSet s.map k (blobOverwrite b) := rfl

theorem applyDel_wal (s : EngineState) (k : List Char) :
    (applyDel s k).2.wal = s.wal := rfl

theorem applyDel_clock (s : EngineState) (k : List Char) :
    (applyDel s k).2.clock = s.clock := rfl

theorem applyDel_map (s : EngineState) (k : List Char) :
    (applyDel s k).2.map = mapSet s.map k (BufVal.bin []) := rfl

/-- Claim C1: `Engine::apply_mutation` is gated on the locally stored
meta timestamp (parsed as `(0,0,0)` when the meta blob is absent or
non-numeric, which is how `localMetaTs` reads it): a stale mutation
(`m.ts ≤ local`) leaves the whole engine state unchanged; otherwise
exactly one WAL batch — value or tombstone plus its meta — is
appended, and the key and its meta entry are overwritten in the
map. -/
theorem C1_apply_mutation_lww (s : EngineState) (m : Mutation) :
    (Timestamp.le m.ts (localMetaTs s m.key) → applyMutation s m = s) ∧
    (¬ Timestamp.le m.ts (localMetaTs s m.key) →
      (applyMutation s m).wal = s.wal ++ [mutationBatch m] ∧
      (applyMutation s m).clock = s.clock ∧
      engineGet (applyMutation s m) (m.key ++ metaSuffix) =
        blobOverwrite (metaString m.ts m.isDelete) ∧
      engineGet (applyMutation s m) m.key =
        (if m.isDelete then BufVal.bin [] else blobOverwrite m.value)) := by
  constructor
  · intro h
    simp only [applyMutation, if_pos h]
  · intro h
    simp only [applyMutation, if_neg h]
    cases hd : m.isDelete
    · simp only [Bool.false_eq_true, if_false]
      refine ⟨applyPut_wal _ _ _, applyPut_clock _ _ _, ?_, ?_⟩
      · simp only [engineGet, applyPut_map, mapGet_mapSet_self]
      · simp only [engineGet, applyPut_map,
          mapGet_mapSet_ne _ _ _ _ (metaKey_ne_key m.key),
          mapGet_mapSet_self]
    · simp only [if_true]
      refine ⟨?_, ?_, ?_, ?_⟩
      · rw [applyPut_wal, applyDel_wal]
      · rw [applyPut_clock, applyDel_clock]
      · simp only [engineGet, applyPut_map, mapGet_mapSet_self]
      · simp only [engineGet, applyPut_map, applyDel_map,
          mapGet_mapSet_ne _ _ _ _ (metaKey_ne_key m.key),
          mapGet_mapSet_self]

/-- Witness for C1: with a stored meta at ts = (100,0,1), a mutation
at (90,0,1) is dropped and one at (110,0,1) appends its WAL batch. -/
theorem C1_apply_mutation_lww_witness :
    applyMutation sC1 mC1stale = sC1 ∧
    (applyMutation sC1 mC1fresh).wal = sC1.wal ++ [mutationBatch mC1fresh] := by
  constructor
  · exact (C1_apply_mutation_lww sC1 mC1stale).1 (by decide)
  · exact ((C1_apply_mutation_lww sC1 mC1fresh).2 (by decide)).1

end L3kv

namespace L3kv

/-! ## Decimal printing round-trips through the modelled JSON parser -/

theorem isDigitCh_digitChar {d : Nat} (h : d < 10) :
    isDigitCh (digitChar d) = true := by
  interval_cases d <;> decide

theorem digitVal_digitChar {d : Nat} (h : d < 10) :
    digitVal (digitChar d) = d := by
  interval_cases d <;> decide

theorem isWs_eq_false_of_isDigitCh {c : Char} (h : isDigitCh c = true) :
    isWs c = false := by
  by_contra hw
  rw [Bool.not_eq_false] at hw
  simp only [isWs, Bool.or_eq_true, decide_eq_true_eq] at hw
  rcases hw with ((h1 | h1) | h1) | h1 <;> subst h1 <;>
    exact absurd h (by decide)

theorem natCharsAux_spec : ∀ fuel n, n < fuel →
    (∀ c ∈ natCharsAux fuel n, ∃ d, d < 10 ∧ c = digitChar d) ∧
    natCharsAux fuel n ≠ [] := by
  intro fuel
  induction fuel with
  | zero => intro n h; omega
  | succ f ih =>
    intro n h
    rw [natCharsAux]
    by_cases h10 : n < 10
    · rw [if_pos h10]
      refine ⟨?_, by simp⟩
      rintro c hc
      rw [List.mem_singleton] at hc
      exact ⟨n, h10, hc⟩
    · rw [if_neg h10]
      obtain ⟨hmem, hne⟩ := ih (n / 10) (by omega)
      constructor
      · intro c hc
        rw [List.mem_append] at hc
        rcases hc with hc | hc
        · exact hmem c hc
        · rw [List.mem_singleton] at hc
          exact ⟨n % 10, by omega, hc⟩
      · simp [hne]

theorem natChars_digit_heads (n : Nat) :
    ∃ d rest, natChars n = digitChar d :: rest ∧ d < 10 := by
  obtain ⟨hmem, hne⟩ := natCharsAux_spec (n + 1) n (by omega)
  rw [natChars]
  cases hx : natCharsAux (n + 1) n with
  | nil => exact absurd hx hne
  | cons c rest =>
    obtain ⟨d, hd, hcd⟩ := hmem c (by rw [hx]; exact List.mem_cons_self _ _)
    exact ⟨d, rest, by rw [hcd], hd⟩

theorem parseDigits_append : ∀ fuel n, n < fuel → ∀ acc rest,
    parseDigits (natCharsAux fuel n ++ rest) acc =
      parseDigits rest (acc * 10 ^ (natCharsAux fuel n).length + n) := by
  intro fuel
  induction fuel with
  | zero => intro n h; omega
  | succ f ih =>
    intro n h acc rest
    rw [natCharsAux]
    by_cases h10 : n < 10
    · rw [if_pos h10]
      rw [List.singleton_append, List.length_singleton, pow_one,
        parseDigits, if_pos (isDigitCh_digitChar h10),
        digitVal_digitChar h10]
    · rw [if_neg h10]
      rw [List.append_assoc, List.singleton_append,
        ih (n / 10) (by omega), parseDigits,
        if_pos (isDigitCh_digitChar (by omega : n % 10 < 10)),
        digitVal_digitChar (by omega : n % 10 < 10),
        List.length_append, List.length_singleton, pow_succ]
      congr 1
      set P := 10 ^ (natCharsAux f (n / 10)).length with hP
      have h1 : n / 10 * 10 + n % 10 = n := by omega
      calc (acc * P + n / 10) * 10 + n % 10
          = acc * (P * 10) + (n / 10 * 10 + n % 10) := by ring
        _ = acc * (P * 10) + n := by rw [h1]

theorem parseDigits_stop (acc : Nat) (rest : List Char)
    (h : notDigitStart rest) : parseDigits rest acc = (acc, rest) := by
  cases rest with
  | nil => rfl
  | cons c t =>
    rw [notDigitStart] at h
    rw [parseDigits, if_neg]
    simp [h]

theorem parseDigits_natChars (n : Nat) (rest : List Char)
    (h : notDigitStart rest) :
    parseDigits (natChars n ++ rest) 0 = (n, rest) := by
  rw [natChars, parseDigits_append (n + 1) n (by omega),
    parseDigits_stop _ _ h]
  simp

theorem notDigitStart_of_numStop {rest : List Char} (h : numStop rest) :
    notDigitStart rest := by
  cases rest with
  | nil => trivial
  | cons c t => exact h.1

theorem parseNumTail_natChars (neg : Bool) (n : Nat) (rest : List Char)
    (h : numStop rest) :
    parseNumTail neg (natChars n ++ rest) =
      some (.jint (if neg then -(n : Int) else (n : Int)), rest) := by
  obtain ⟨d, tl, hnc, hd⟩ := natChars_digit_heads n
  have hdig := isDigitCh_digitChar hd
  have hpd : parseDigits (natChars n ++ rest) 0 = (n, rest) :=
    parseDigits_natChars n rest (notDigitStart_of_numStop h)
  rw [hnc, List.cons_append, parseNumTail]
  rw [if_pos hdig]
  rw [← List.cons_append, ← hnc, hpd]
  cases rest with
  | nil => rfl
  | cons c t =>
    cases t with
    | nil => rfl
    | cons c2 t2 =>
      dsimp only
      rw [if_neg (by
        simp only [Bool.and_eq_true, decide_eq_true_eq]
        rintro ⟨hdot, -⟩
        rw [numStop] at h
        exact h.2 hdot)]

theorem parseNumber_natChars (n : Nat) (rest : List Char) (h : numStop rest) :
    parseNumber (natChars n ++ rest) = some (.jint (n : Int), rest) := by
  obtain ⟨d, tl, hnc, hd⟩ := natChars_digit_heads n
  have hneg : digitChar d ≠ '-' := by
    intro he
    have hdig := isDigitCh_digitChar hd
    rw [he] at hdig
    exact absurd hdig (by decide)
  rw [hnc, List.cons_append, parseNumber]
  rw [if_neg hneg, ← List.cons_append, ← hnc,
    parseNumTail_natChars false n rest h]
  rfl

theorem parseNumber_intChars (w : Int) (rest : List Char) (h : numStop rest) :
    parseNumber (intChars w ++ rest) = some (.jint w, rest) := by
  rw [intChars]
  by_cases hw : w < 0
  · rw [if_pos hw, List.cons_append, parseNumber]
    rw [if_pos rfl, parseNumTail_natChars true _ rest h]
    have : -((w.natAbs : Nat) : Int) = w := by omega
    rw [if_pos rfl] at *
    simp only [this]
  · rw [if_neg hw, parseNumber_natChars w.toNat rest h]
    have : ((w.toNat : Nat) : Int) = w := Int.toNat_of_nonneg (not_lt.mp hw)
    simp only [this]

theorem skipWs_cons_of_not_ws {c : Char} (h : isWs c = false)
    (cs : List Char) : skipWs (c :: cs) = c :: cs := by
  simp [skipWs, h]

theorem ne_of_isDigitCh {c x : Char} (hc : isDigitCh c = true)
    (hx : isDigitCh x = false) : c ≠ x := by
  intro he
  rw [he, hx] at hc
  cases hc

/-- A digit-leading input is dispatched to the number parser. -/
theorem parseValue_number (fuel : Nat) (c : Char) (cs : List Char)
    (hc : isDigitCh c = true) :
    parseValue (fuel + 1) (c :: cs) = parseNumber (c :: cs) := by
  have hws := isWs_eq_false_of_isDigitCh hc
  rw [parseValue, skipWs_cons_of_not_ws hws]
  dsimp only
  rw [if_neg (ne_of_isDigitCh hc (by decide)),
    if_neg (ne_of_isDigitCh hc (by decide)),
    if_neg (ne_of_isDigitCh hc (by decide)),
    if_neg (ne_of_isDigitCh hc (by decide)),
    if_neg (ne_of_isDigitCh hc (by decide)),
    if_neg (ne_of_isDigitCh hc (by decide))]
  simp only [hc, Bool.or_true, if_true]

theorem parseValue_neg (fuel : Nat) (cs : List Char) :
    parseValue (fuel + 1) ('-' :: cs) = parseNumber ('-' :: cs) := rfl

theorem parseValue_natChars (fuel : Nat) (n : Nat) (rest : List Char)
    (h : numStop rest) :
    parseValue (fuel + 1) (natChars n ++ rest) =
      some (.jint (n : Int), rest) := by
  obtain ⟨d, tl, hnc, hd⟩ := natChars_digit_heads n
  rw [hnc, List.cons_append,
    parseValue_number fuel _ _ (isDigitCh_digitChar hd),
    ← List.cons_append, ← hnc, parseNumber_natChars n rest h]

theorem parseValue_intChars (fuel : Nat) (w : Int) (rest : List Char)
    (h : numStop rest) :
    parseValue (fuel + 1) (intChars w ++ rest) = some (.jint w, rest) := by
  have hres := parseNumber_intChars w rest h
  rw [intChars] at hres ⊢
  by_cases hw : w < 0
  · rw [if_pos hw] at hres ⊢
    rw [List.cons_append] at hres ⊢
    rw [parseValue_neg fuel _, hres]
  · rw [if_neg hw] at hres ⊢
    obtain ⟨d, tl, hnc, hd⟩ := natChars_digit_heads w.toNat
    rw [hnc, List.cons_append] at hres ⊢
    rw [parseValue_number fuel _ _ (isDigitCh_digitChar hd), hres]

theorem parseValue_true (fuel : Nat) (cs : List Char) :
    parseValue (fuel + 1) ('t' :: 'r' :: 'u' :: 'e' :: cs) =
      some (.jbool true, cs) := rfl

theorem parseValue_obj (f : Nat) (cs : List Char) :
    parseValue (f + 1) (Char.ofNat 123 :: quoteCh :: cs) =
      (parseMembers f (quoteCh :: cs)).map fun r => (JVal.jobj r.1, r.2) := rfl

end L3kv

namespace L3kv

/-! ## One parser step per meta-string member -/

theorem parseMembers_ts (f : Nat) (body : List Char) :
    parseMembers (f + 1) (quoteCh :: 't' :: 's' :: quoteCh :: ':' :: body) =
      (match parseValue f body with
       | none => none
       | some (v, r4) =>
         match skipWs r4 with
         | e :: r5 =>
           if e = ',' then
             (parseMembers f r5).map fun r => ((tsKey, v) :: r.1, r.2)
           else if e = Char.ofNat 125 then some ([(tsKey, v)], r5)
           else none
         | [] => none) := rfl

theorem parseMembers_l (f : Nat) (body : List Char) :
    parseMembers (f + 1) (quoteCh :: 'l' :: quoteCh :: ':' :: body) =
      (match parseValue f body with
       | none => none
       | some (v, r4) =>
         match skipWs r4 with
         | e :: r5 =>
           if e = ',' then
             (parseMembers f r5).map fun r => ((lKey, v) :: r.1, r.2)
           else if e = Char.ofNat 125 then some ([(lKey, v)], r5)
           else none
         | [] => none) := rfl

theorem parseMembers_n (f : Nat) (body : List Char) :
    parseMembers (f + 1) (quoteCh :: 'n' :: quoteCh :: ':' :: body) =
      (match parseValue f body with
       | none => none
       | some (v, r4) =>
         match skipWs r4 with
         | e :: r5 =>
           if e = ',' then
             (parseMembers f r5).map fun r => ((nKey, v) :: r.1, r.2)
           else if e = Char.ofNat 125 then some ([(nKey, v)], r5)
           else none
         | [] => none) := rfl

theorem parseMembers_tomb (f : Nat) (body : List Char) :
    parseMembers (f + 1) (quoteCh :: 't' :: 'o' :: 'm' :: 'b' :: 's' :: 't' ::
      'o' :: 'n' :: 'e' :: quoteCh :: ':' :: body) =
      (match parseValue f body with
       | none => none
       | some (v, r4) =>
         match skipWs r4 with
         | e :: r5 =>
           if e = ',' then
             (parseMembers f r5).map fun r => ((tombKey, v) :: r.1, r.2)
           else if e = Char.ofNat 125 then some ([(tombKey, v)], r5)
           else none
         | [] => none) := rfl

theorem parseMembers_ts_mid (f : Nat) (body rest : List Char) (v : JVal)
    (hval : parseValue f body = some (v, ',' :: rest)) :
    parseMembers (f + 1) (quoteCh :: 't' :: 's' :: quoteCh :: ':' :: body) =
      (parseMembers f rest).map fun r => ((tsKey, v) :: r.1, r.2) := by
  rw [parseMembers_ts f body, hval]
  rfl

theorem parseMembers_l_mid (f : Nat) (body rest : List Char) (v : JVal)
    (hval : parseValue f body = some (v, ',' :: rest)) :
    parseMembers (f + 1) (quoteCh :: 'l' :: quoteCh :: ':' :: body) =
      (parseMembers f rest).map fun r => ((lKey, v) :: r.1, r.2) := by
  rw [parseMembers_l f body, hval]
  rfl

theorem parseMembers_n_mid (f : Nat) (body rest : List Char) (v : JVal)
    (hval : parseValue f body = some (v, ',' :: rest)) :
    parseMembers (f + 1) (quoteCh :: 'n' :: quoteCh :: ':' :: body) =
      (parseMembers f rest).map fun r => ((nKey, v) :: r.1, r.2) := by
  rw [parseMembers_n f body, hval]
  rfl

theorem parseMembers_n_last (f : Nat) (body rest : List Char) (v : JVal)
    (hval : parseValue f body = some (v, Char.ofNat 125 :: rest)) :
    parseMembers (f + 1) (quoteCh :: 'n' :: quoteCh :: ':' :: body) =
      some ([(nKey, v)], rest) := by
  rw [parseMembers_n f body, hval]
  rfl

theorem parseMembers_tomb_last (f : Nat) (body rest : List Char) (v : JVal)
    (hval : parseValue f body = some (v, Char.ofNat 125 :: rest)) :
    parseMembers (f + 1) (quoteCh :: 't' :: 'o' :: 'm' :: 'b' :: 's' :: 't' ::
      'o' :: 'n' :: 'e' :: quoteCh :: ':' :: body) =
      some ([(tombKey, v)], rest) := by
  rw [parseMembers_tomb f body, hval]
  rfl

/-- The engine-generated meta string parses to exactly its field list,
consuming the whole input, for any sufficiently large fuel. -/
theorem parseValue_metaString (f : Nat) (t : Timestamp) (tomb : Bool) :
    parseValue (f + 6) (metaString t tomb) =
      some (.jobj (metaFields t tomb), []) := by
  cases tomb
  · rw [metaString]
    simp only [Bool.false_eq_true, if_false]
    rw [show f + 6 = (f + 5) + 1 from rfl, parseValue_obj,
      show f + 5 = (f + 4) + 1 from rfl,
      parseMembers_ts_mid (f + 4) _ _ _
        (by rw [show f + 4 = (f + 3) + 1 from rfl]
            exact parseValue_intChars (f + 3) t.wall _ ⟨by decide, by decide⟩),
      show f + 4 = (f + 3) + 1 from rfl,
      parseMembers_l_mid (f + 3) _ _ _
        (by rw [show f + 3 = (f + 2) + 1 from rfl]
            exact parseValue_natChars (f + 2) t.logical _
              ⟨by decide, by decide⟩),
      show f + 3 = (f + 2) + 1 from rfl,
      parseMembers_n_last (f + 2) _ _ _
        (by rw [show f + 2 = (f + 1) + 1 from rfl]
            exact parseValue_natChars (f + 1) t.nodeId _
              ⟨by decide, by decide⟩)]
    rfl
  · rw [metaString]
    simp only [if_true]
    rw [show f + 6 = (f + 5) + 1 from rfl, parseValue_obj,
      show f + 5 = (f + 4) + 1 from rfl,
      parseMembers_ts_mid (f + 4) _ _ _
        (by rw [show f + 4 = (f + 3) + 1 from rfl]
            exact parseValue_intChars (f + 3) t.wall _ ⟨by decide, by decide⟩),
      show f + 4 = (f + 3) + 1 from rfl,
      parseMembers_l_mid (f + 3) _ _ _
        (by rw [show f + 3 = (f + 2) + 1 from rfl]
            exact parseValue_natChars (f + 2) t.logical _
              ⟨by decide, by decide⟩),
      show f + 3 = (f + 2) + 1 from rfl,
      parseMembers_n_mid (f + 2) _ _ _
        (by rw [show f + 2 = (f + 1) + 1 from rfl]
            exact parseValue_natChars (f + 1) t.nodeId _
              ⟨by decide, by decide⟩),
      show f + 2 = (f + 1) + 1 from rfl,
      parseMembers_tomb_last (f + 1) _ _ _
        (parseValue_true f _)]
    rfl

theorem metaString_length_ge (t : Timestamp) (tomb : Bool) :
    5 ≤ (metaString t tomb).length := by
  rw [metaString]
  simp [List.length_cons]

theorem parseJson_metaString (t : Timestamp) (tomb : Bool) :
    parseJson (metaString t tomb) = some (.jobj (metaFields t tomb)) := by
  obtain ⟨g, hg⟩ : ∃ g, (metaString t tomb).length + 1 = g + 6 :=
    ⟨(metaString t tomb).length - 5, by
      have := metaString_length_ge t tomb; omega⟩
  rw [parseJson, hg, parseValue_metaString]
  rfl

theorem metaString_head (t : Timestamp) (tomb : Bool) :
    ∃ r, metaString t tomb = Char.ofNat 123 :: r := by
  rw [metaString]
  exact ⟨_, rfl⟩

/-- `Blob::overwrite` of an engine meta string always takes the JSON
branch and stores the structured field list. -/
theorem blobOverwrite_metaString (t : Timestamp) (tomb : Bool) :
    blobOverwrite (metaString t tomb) = .node (.jobj (metaFields t tomb)) := by
  have hparse := parseJson_metaString t tomb
  obtain ⟨r, hr⟩ := metaString_head t tomb
  rw [hr] at hparse ⊢
  rw [blobOverwrite]
  dsimp only
  rw [if_pos (by decide : ((Char.ofNat 123 = Char.ofNat 123 : Bool) ||
    (Char.ofNat 123 = '[' : Bool)) = true)]
  rw [hparse]

end L3kv

namespace L3kv

/-! ## C2: tombstones are sticky under stale writes -/

theorem size_node_jobj (fs : List (List Char × JVal)) :
    0 < (BufVal.node (.jobj fs)).size := by
  rw [BufVal.size, BufVal.view, jvalChars]
  simp

/-- When the stored meta blob is the parsed engine meta for timestamp
`t`, the inlined local-timestamp lookup recovers exactly `t` (the
`uint32` casts are identities below `2^32`). -/
theorem localMetaTs_metaFields (s : EngineState) (key : List Char)
    (t : Timestamp) (tomb : Bool) (hl : t.logical < U32) (hn : t.nodeId < U32)
    (hmeta : mapGet s.map (key ++ metaSuffix) =
      some (.node (.jobj (metaFields t tomb)))) :
    localMetaTs s key = t := by
  unfold localMetaTs
  rw [engineGet, hmeta]
  dsimp only
  rw [if_pos (size_node_jobj _)]
  have hty : (BufVal.node (JVal.jobj (metaFields t tomb))).getType tsKey =
      LType.tint64 := rfl
  rw [if_pos (Or.inl hty)]
  obtain ⟨w, l, n⟩ := t
  simp only [Timestamp.mk.injEq]
  refine ⟨rfl, ?_, ?_⟩
  · show (((l : Nat) : Int) % ((U32 : Nat) : Int)).toNat = l
    rw [Int.emod_eq_of_lt (Int.natCast_nonneg l) (by exact_mod_cast hl)]
    simp
  · show (((n : Nat) : Int) % ((U32 : Nat) : Int)).toNat = n
    rw [Int.emod_eq_of_lt (Int.natCast_nonneg n) (by exact_mod_cast hn)]
    simp

/-- Claim C2: after an applied delete mutation at `mdel.ts`, any
mutation on the same key with a strictly smaller timestamp is a
no-op — the key still reads as empty bytes, the meta entry still
carries the tombstone flag, and the locally parsed meta timestamp is
still the delete's. -/
theorem C2_tombstones_sticky (s : EngineState) (mdel m : Mutation)
    (hdel : mdel.isDelete = true)
    (hkey : m.key = mdel.key)
    (happly : ¬ Timestamp.le mdel.ts (localMetaTs s mdel.key))
    (hlt : Timestamp.lt m.ts mdel.ts)
    (hl : mdel.ts.logical < U32) (hn : mdel.ts.nodeId < U32) :
    applyMutation (applyMutation s mdel) m = applyMutation s mdel ∧
    (engineGet (applyMutation s mdel) mdel.key).view = [] ∧
    (engineGet (applyMutation s mdel) (mdel.key ++ metaSuffix)).getBool tombKey
      = true ∧
    localMetaTs (applyMutation s mdel) mdel.key = mdel.ts := by
  have hmap_meta : mapGet (applyMutation s mdel).map (mdel.key ++ metaSuffix) =
      some (.node (.jobj (metaFields mdel.ts true))) := by
    simp only [applyMutation, if_neg happly, hdel, eq_self_iff_true, if_true]
    rw [applyPut_map, mapGet_mapSet_self, blobOverwrite_metaString]
  have hmap_key : mapGet (applyMutation s mdel).map mdel.key =
      some (.bin []) := by
    simp only [applyMutation, if_neg happly, hdel, eq_self_iff_true, if_true]
    rw [applyPut_map, mapGet_mapSet_ne _ _ _ _ (metaKey_ne_key mdel.key),
      applyDel_map, mapGet_mapSet_self]
  have hloc : localMetaTs (applyMutation s mdel) mdel.key = mdel.ts :=
    localMetaTs_metaFields _ _ _ _ hl hn hmap_meta
  have hcond : Timestamp.le m.ts (localMetaTs (applyMutation s mdel) m.key) := by
    rw [hkey, hloc]
    exact Timestamp.le_of_lt hlt
  refine ⟨?_, ?_, ?_, hloc⟩
  · rw [applyMutation, if_pos hcond]
  · rw [engineGet, hmap_key]
    rfl
  · rw [engineGet, hmap_meta]
    rfl

/-- Witness for C2: a delete at ts (110,0,1) on the empty engine
followed by a stale put at (105,0,1) — the stale put changes nothing
and the key still reads empty. -/
theorem C2_tombstones_sticky_witness :
    applyMutation (applyMutation sC2 mC2del) mC2stale =
      applyMutation sC2 mC2del ∧
    (engineGet (applyMutation sC2 mC2del) mC2del.key).view = [] := by
  have h := C2_tombstones_sticky sC2 mC2del mC2stale rfl rfl (by decide)
    (by decide) (by decide) (by decide)
  exact ⟨h.1, h.2.1⟩

end L3kv
